import Mathlib

/-!
Verification of the lang-parse expression-graph parser.

This file shallowly embeds the current snapshot of `src/parse.ts` (the
`ExpressionResult` / `LiteralResult` engine with explicit finalization and
parent links), the builder layer of `src/expression.ts`, and the latest
combinator layer (`sequence`/`union` that collapse a single child, `repeated`)
from `src/types/expression.ts`, and proves or refutes the specification's
claims about them.

Modelling conventions:
- JavaScript strings are modelled at code-point granularity: `String` in Lean
  wraps `List Char`, `slice`/`length` become `strDrop`/`strTake`/`strLen`.
- The regular-expression collaborator is a black box, exactly as the spec's
  §6 describes it: a `RegexEngine` maps a pattern (source + flags) and a text
  to an optional (matched text, capture groups) pair.  The engine is only
  ever invoked on the start-anchored pattern the evaluator builds, so a
  well-formed engine (`wfEngine`) returns a match no longer than its input.
  `miniExec` is a concrete engine implementing JavaScript `RegExp` semantics
  for the anchored fragment appearing in the repository (plain character
  sequences, `$`, `(?:)`), used for concrete evaluations.
- Mutable `ExpressionResult` objects are modelled by a `Store`: a list of
  `NodeData` records addressed by allocation index.  `ExpressionResult`
  construction appends a record with `branchResults := none` (unfinalized);
  `finalize` sets the field.  Parent references are allocation indices; a
  node is always allocated before its children, so parent indices are
  strictly smaller than child indices.
- Immer's `produce(state, updater)` is modelled as a pure function
  `σ → List (Option String) → σ` (the draft-copy discipline is exactly
  purity).
- JavaScript object identity (`===`) on suggestion-group objects is modelled
  by a `gid` field: distinct group objects carry distinct `gid`s.
- A JavaScript string-keyed record (`Record<string, ...>`) is modelled as an
  insertion-ordered association list; assignment to an existing key updates
  the value in place, and `Object.values` lists properties whose keys are
  canonical array indices (non-negative canonical integers below 2^32 - 1)
  first in ascending numeric order, then the remaining keys in insertion
  order, per ECMA-262 `OrdinaryOwnPropertyKeys`.
-/

namespace LangParse

/-! ## Strings at code-point granularity -/

/-- Model of `s.length`. -/
def strLen (s : String) : Nat := s.data.length

/-- Model of `s.slice(0, n)` for `0 ≤ n`. -/
def strTake (s : String) (n : Nat) : String := ⟨s.data.take n⟩

/-- Model of `s.slice(n)` for `0 ≤ n`. -/
def strDrop (s : String) (n : Nat) : String := ⟨s.data.drop n⟩

/-- Model of `s.startsWith("^")` on a regexp source. -/
def startsWithCaret (s : String) : Bool :=
  match s.data with
  | c :: _ => c = '^'
  | [] => false

/-! ## Suggestions (`src/types/suggestion.ts`) -/

/-- A suggestion group `{key, priority?}`.  `gid` models JavaScript object
identity: two group objects are `===` exactly when their `gid`s agree. -/
structure SugGroup where
  gid : Nat
  key : String
  priority : Option Int
deriving DecidableEq, Repr

/-- A suggestion object `{label, value?, group?, priority?}`. -/
structure SuggestionObj where
  label : String
  value : Option String
  group : Option SugGroup
  priority : Option Int
deriving DecidableEq, Repr

/-- A suggestion: either a bare label string or a suggestion object. -/
inductive Suggestion where
  | str (s : String)
  | obj (o : SuggestionObj)
deriving DecidableEq, Repr

/-- `suggestionAsObj` from `src/parse.ts`: a bare string becomes `{label}`. -/
def suggestionAsObj : Suggestion → SuggestionObj
  | .str s => ⟨s, none, none, none⟩
  | .obj o => o

/-- JavaScript `s1.group === s2.group`: both `undefined`, or the same object. -/
def sameGroupRef : Option SugGroup → Option SugGroup → Bool
  | none, none => true
  | some g1, some g2 => g1.gid = g2.gid
  | _, _ => false

/-- `compareSuggestionPriority` from `src/parse.ts`. -/
def compareSuggestionPriority (s1 s2 : SuggestionObj) : Int :=
  if sameGroupRef s1.group s2.group then
    (s1.priority.getD 0) - (s2.priority.getD 0)
  else
    let groupDiff : Int :=
      (if s1.group.isSome then 1 else 0) - (if s2.group.isSome then 1 else 0)
    if groupDiff ≠ 0 then groupDiff
    else ((s1.group.bind (·.priority)).getD 0) - ((s2.group.bind (·.priority)).getD 0)

/-- Insertion-ordered entries of a JavaScript `Record<string, SuggestionObj>`. -/
abbrev Entries := List (String × SuggestionObj)

/-- Property lookup on the record model. -/
def lookupEntry : Entries → String → Option SuggestionObj
  | [], _ => none
  | (k, v) :: rest, key => if k = key then some v else lookupEntry rest key

/-- Assignment to an existing key: the value changes, the position does not. -/
def updateEntry : Entries → String → SuggestionObj → Entries
  | [], _, _ => []
  | (k, v) :: rest, key, nv =>
    if k = key then (k, nv) :: rest else (k, v) :: updateEntry rest key nv

/-- One iteration of the `dedupSuggestions` loop from `src/parse.ts`. -/
def dedupStep (acc : Entries) (s : SuggestionObj) : Entries :=
  let key := s.label
  match lookupEntry acc key with
  | none => acc ++ [(key, s)]
  | some existing =>
    if compareSuggestionPriority s existing > 0 then updateEntry acc key s else acc

/-- The record built by the `dedupSuggestions` loop. -/
def dedupEntries (l : List SuggestionObj) : Entries := l.foldl dedupStep []

/-- Is `s` a canonical array-index property key (ECMA-262): the canonical
decimal form of an integer `n` with `0 ≤ n < 2^32 - 1`? -/
def keyIdx? (s : String) : Option Nat :=
  match s.data with
  | [] => none
  | ds =>
    if ds.all (fun c => c.isDigit) ∧ (ds = ['0'] ∨ ds.head? ≠ some '0') then
      let n := ds.foldl (fun a c => a * 10 + (c.toNat - 48)) 0
      if n < 4294967295 then some n else none
    else none

/-- Insert into a list sorted by ascending numeric key. -/
def insertNatKey (x : Nat × SuggestionObj) : List (Nat × SuggestionObj) → List (Nat × SuggestionObj)
  | [] => [x]
  | y :: ys => if x.1 ≤ y.1 then x :: y :: ys else y :: insertNatKey x ys

/-- Insertion sort by ascending numeric key. -/
def sortNatKeys : List (Nat × SuggestionObj) → List (Nat × SuggestionObj)
  | [] => []
  | x :: xs => insertNatKey x (sortNatKeys xs)

/-- `Object.values` on the record model: array-index keys first in ascending
numeric order, then the remaining keys in insertion order. -/
def objectValues (es : Entries) : List SuggestionObj :=
  let idx := es.filterMap (fun p => (keyIdx? p.1).map (fun n => (n, p.2)))
  let rest := es.filter (fun p => (keyIdx? p.1).isNone)
  (sortNatKeys idx).map (·.2) ++ rest.map (·.2)

/-- `dedupSuggestions` from `src/parse.ts`.  The input elements are already
`SuggestionObj`s (the defensive `suggestionAsObj` call in the source is the
identity on objects). -/
def dedupSuggestions (l : List SuggestionObj) : List SuggestionObj :=
  objectValues (dedupEntries l)

/-! ## The regular-expression collaborator -/

/-- A compiled pattern as the evaluator sees it: `source` and `flags`. -/
structure RegexpData where
  source : String
  flags : String
deriving DecidableEq, Repr

/-- The black-box regex collaborator: `execute(pattern, text)` returning the
matched text and the capture groups (absent groups are `none`). -/
abbrev RegexEngine := RegexpData → String → Option (String × List (Option String))

/-- A well-formed engine never reports a match longer than its input (the
matched text of an anchored `exec` is a prefix of the text). -/
def wfEngine (eng : RegexEngine) : Prop :=
  ∀ r s m gs, eng r s = some (m, gs) → strLen m ≤ strLen s

/-- Case-insensitive character comparison used by the `i` flag. -/
def ciEq (a b : Char) : Bool := a.toLower = b.toLower

/-- Does the pattern body (a plain character sequence) match a prefix of `s`? -/
def plainMatches (ci : Bool) (pat s : List Char) : Bool :=
  match pat, s with
  | [], _ => true
  | _ :: _, [] => false
  | p :: ps, c :: cs => (if ci then ciEq p c else p = c) && plainMatches ci ps cs

/-- A concrete engine implementing JavaScript `RegExp.prototype.exec`
semantics for the anchored pattern fragment used in this repository:
`^$` matches only the empty string, `^(?:)` matches the empty string at the
start of any input, and `^` followed by a plain character sequence matches
that sequence (honouring the `i` flag).  The evaluator only ever executes
anchored patterns, so unanchored sources report no match. -/
def miniExec : RegexEngine := fun r s =>
  match r.source.data with
  | '^' :: body =>
    if body = ['$'] then (if s.data.isEmpty then some ("", []) else none)
    else if body = ['(', '?', ':', ')'] then some ("", [])
    else
      let ci := r.flags.data.contains 'i'
      if plainMatches ci body s.data then some (⟨s.data.take body.length⟩, [])
      else none
  | _ => none

/-! ## The expression graph (`src/types/expression.ts`) -/

/-- `regexp: RegExp | ((state) => RegExp)`. -/
inductive ReSpec (σ : Type) where
  | static (r : RegexpData)
  | fromState (f : σ → RegexpData)

/-- `suggestions: Suggestion[] | ((state, existingMatchingPart) => Suggestion[])`.
The function receives the original full input, not the sliced remainder. -/
inductive SugSpec (σ : Type) where
  | static (l : List Suggestion)
  | fromState (f : σ → String → List Suggestion)

/-- An expression node.  Every node carries the optional `id` that
`ExpressionWithId` can attach; the state updater models
`produce(state, draft => stateUpdater(draft, matchGroups))` as a pure
function. -/
inductive Expr (σ : Type) where
  | literal (id : Option String) (regexp : ReSpec σ) (suggestions : SugSpec σ)
      (stateUpdater : σ → List (Option String) → σ)
  | sequence (id : Option String) (children : List (Expr σ))
  | union (id : Option String) (alternates : List (Expr σ))
  | dynamic (id : Option String) (fn : σ → (String → Bool) → Expr σ)

/-- The optional `id` of an expression node. -/
def exprId : Expr σ → Option String
  | .literal i _ _ _ => i
  | .sequence i _ => i
  | .union i _ => i
  | .dynamic i _ => i

/-- Resolve `expression.regexp` against the prior state. -/
def resolveRegexp : ReSpec σ → σ → RegexpData
  | .static r, _ => r
  | .fromState f, s => f s

/-- Resolve `expression.suggestions` against the prior state and full input. -/
def resolveSuggestions : SugSpec σ → σ → String → List Suggestion
  | .static l, _, _ => l
  | .fromState f, s, inp => f s inp

/-- The anchored pattern `parseLiteral` executes: the original pattern if its
source already starts with `^`, otherwise `new RegExp("^" + source)` — a
fresh pattern whose flags are the constructor's defaults (empty). -/
def finalRegexpOf (r : RegexpData) : RegexpData :=
  if startsWithCaret r.source then r else ⟨⟨'^' :: r.source.data⟩, ""⟩

/-! ## Literal results and the node store (`src/parse.ts`) -/

/-- A `LiteralResult`: one link in the chain of literal outcomes of a branch.
`start` is the synthetic root result (its `prev` is `undefined`); `cons`
carries the previous link.  Field order: container reference, (previous
link,) `matchEnd`, `isMatch`, `suggestions`, `state`. -/
inductive LitRes (σ : Type) where
  | start (container : Nat) (matchEnd : Nat) (isMatch : Bool)
      (suggestions : List SuggestionObj) (state : σ)
  | cons (container : Nat) (prev : LitRes σ) (matchEnd : Nat) (isMatch : Bool)
      (suggestions : List SuggestionObj) (state : σ)
deriving DecidableEq

/-- The `matchEnd` field. -/
def LitRes.matchEnd : LitRes σ → Nat
  | .start _ m _ _ _ => m
  | .cons _ _ m _ _ _ => m

/-- The `isMatch` field. -/
def LitRes.isMatch : LitRes σ → Bool
  | .start _ _ b _ _ => b
  | .cons _ _ _ b _ _ => b

/-- The `suggestions` field. -/
def LitRes.sugs : LitRes σ → List SuggestionObj
  | .start _ _ _ s _ => s
  | .cons _ _ _ _ s _ => s

/-- The `state` field. -/
def LitRes.state : LitRes σ → σ
  | .start _ _ _ _ st => st
  | .cons _ _ _ _ _ st => st

/-- The `container` reference. -/
def LitRes.container : LitRes σ → Nat
  | .start c _ _ _ _ => c
  | .cons c _ _ _ _ _ => c

/-- One `ExpressionResult` object: node id, parent reference, and the branch
results once `finalize` has been called (`none` while unfinalized). -/
structure NodeData (σ : Type) where
  nodeId : String
  parent : Option Nat
  branchResults : Option (List (LitRes σ))
deriving DecidableEq

/-- The heap of `ExpressionResult` objects, addressed by allocation index. -/
structure Store (σ : Type) where
  nodes : List (NodeData σ)
deriving DecidableEq

/-- Set the `branchResults` of the node at index `ref`. -/
def setResults : List (NodeData σ) → Nat → List (LitRes σ) → List (NodeData σ)
  | [], _, _ => []
  | nd :: rest, 0, rs => { nd with branchResults := some rs } :: rest
  | nd :: rest, Nat.succ k, rs => nd :: setResults rest k rs

/-- `result.finalize(branchResults)`. -/
def Store.finalize (st : Store σ) (ref : Nat) (rs : List (LitRes σ)) : Store σ :=
  ⟨setResults st.nodes ref rs⟩

/-- The branch results of the node at `ref` (empty if absent or unfinalized). -/
def resultsOf (st : Store σ) (ref : Nat) : List (LitRes σ) :=
  match st.nodes.get? ref with
  | some nd => nd.branchResults.getD []
  | none => []

/-- The node id of the node at `ref`. -/
def nodeIdOf (st : Store σ) (ref : Nat) : String :=
  match st.nodes.get? ref with
  | some nd => nd.nodeId
  | none => ""

/-- `greatestMatchEnd`: `reduce(Math.max, 0)` over the branch results. -/
def greatestMatchEnd (rs : List (LitRes σ)) : Nat :=
  rs.foldl (fun g r => Nat.max g r.matchEnd) 0

/-- The `longestMatchResults` view: branch results of maximal `matchEnd`. -/
def longestMatchResults (rs : List (LitRes σ)) : List (LitRes σ) :=
  rs.filter (fun r => r.matchEnd = greatestMatchEnd rs)

/-- The `bestResult` view: a matching longest result if any, else the first
longest result (`undefined`, hence `none`, on an empty list). -/
def bestResult? (rs : List (LitRes σ)) : Option (LitRes σ) :=
  match (longestMatchResults rs).find? (fun r => r.isMatch) with
  | some r => some r
  | none => (longestMatchResults rs).head?

/-- Aggregate `isMatch` of a finalized node: some branch result matches. -/
def nodeIsMatch (nd : NodeData σ) : Bool :=
  (nd.branchResults.getD []).any (fun r => r.isMatch)

/-! ## `getAllMatchedNodeIds` (`src/parse.ts`, current snapshot) -/

/-- `Set.add`: membership-preserving append. -/
def addIfAbsent (acc : List String) (s : String) : List String :=
  if acc.contains s then acc else acc ++ [s]

/-- The inner climb of `getAllMatchedNodeIds`: from an expression result up
the `parent` chain while the node exists and is finalized; break as soon as
the node's id is already in the set; add the id of every matching node
passed.  Parent references strictly decrease, so `st.nodes.length + 1` fuel
always suffices; the fuel only makes termination syntactic. -/
def climb (st : Store σ) : Nat → Option Nat → List String → List String
  | 0, _, acc => acc
  | Nat.succ f, cur, acc =>
    match cur with
    | none => acc
    | some ref =>
      match st.nodes.get? ref with
      | none => acc
      | some nd =>
        match nd.branchResults with
        | none => acc
        | some rs =>
          if acc.contains nd.nodeId then acc
          else
            climb st f nd.parent
              (if rs.any (fun r => r.isMatch) then acc ++ [nd.nodeId] else acc)

/-- The body of the outer loop for one chain link: if the literal result
matched, add its container's id and start the climb at the container. -/
def matchedStep (st : Store σ) (isM : Bool) (cref : Nat) (acc : List String) : List String :=
  if isM then
    climb st (st.nodes.length + 1) (some cref) (addIfAbsent acc (nodeIdOf st cref))
  else acc

/-- The outer loop: walk the `prev` chain from the branch tip to the root. -/
def chainWalk (st : Store σ) : LitRes σ → List String → List String
  | .start c _ isM _ _, acc => matchedStep st isM c acc
  | .cons c prev _ isM _ _, acc => chainWalk st prev (matchedStep st isM c acc)

/-- `getAllMatchedNodeIds` from the current snapshot of `src/parse.ts`. -/
def getAllMatchedNodeIds (st : Store σ) (lr : LitRes σ) : List String :=
  chainWalk st lr []

/-! ## The evaluator (`src/parse.ts`, current snapshot) -/

/-- Evaluation-time failures: configuration errors thrown by zero-child
`sequence`/`union`, and fuel exhaustion of the shallow embedding (the source
recursion has no syntactic bound). -/
inductive EvalErr where
  | configError (msg : String)
  | fuelExhausted
  | internalError
deriving DecidableEq, Repr

/-- Evaluate `f` on each branch in order, threading the store. -/
def threadBranches (f : LitRes σ → Store σ → Except EvalErr (Nat × Store σ)) :
    List (LitRes σ) → Store σ → Except EvalErr (List Nat × Store σ)
  | [], st => .ok ([], st)
  | b :: bs, st =>
    match f b st with
    | .error e => .error e
    | .ok (r, st') =>
      match threadBranches f bs st' with
      | .error e => .error e
      | .ok (rs, st'') => .ok (r :: rs, st'')

/-- Evaluate `f` on each listed expression with its ordinal, threading the
store. -/
def threadAlternates (f : Nat → Expr σ → Store σ → Except EvalErr (Nat × Store σ)) :
    Nat → List (Expr σ) → Store σ → Except EvalErr (List Nat × Store σ)
  | _, [], st => .ok ([], st)
  | i, a :: as, st =>
    match f i a st with
    | .error e => .error e
    | .ok (r, st') =>
      match threadAlternates f (i + 1) as st' with
      | .error e => .error e
      | .ok (rs, st'') => .ok (r :: rs, st'')

/-- The `parseSequence` loop: evaluate child `i` for every live branch,
partition the children's branch results into matching (new live) and
non-matching (dead), stop early once no branch is live, and finalize with
`live ++ dead`. -/
def seqFold (ev : Expr σ → Nat → LitRes σ → Store σ → Except EvalErr (Nat × Store σ)) :
    List (Expr σ) → Nat → List (LitRes σ) → List (LitRes σ) → Store σ →
    Except EvalErr (List (LitRes σ) × Store σ)
  | [], _, live, dead, st => .ok (live ++ dead, st)
  | c :: cs, i, live, dead, st =>
    match threadBranches (fun br s => ev c i br s) live st with
    | .error e => .error e
    | .ok (refs, st') =>
      let newLive := refs.flatMap (fun r => (resultsOf st' r).filter (fun x => x.isMatch))
      let newDead :=
        dead ++ refs.flatMap (fun r => (resultsOf st' r).filter (fun x => !x.isMatch))
      if newLive.isEmpty then .ok (newLive ++ newDead, st')
      else seqFold ev cs (i + 1) newLive newDead st'

/-- The node id assigned on evaluation: the expression's own id, else
`parentId ++ "." ++ ordinal`, else the root sentinel. -/
def computeNodeId (st : Store σ) (e : Expr σ) (parentRef : Option Nat)
    (ordinal : Nat) : String :=
  match exprId e with
  | some i => i
  | none =>
    match parentRef with
    | some p => nodeIdOf st p ++ "." ++ Nat.repr ordinal
    | none => "●"

/-- `parseInternal` from the current snapshot of `src/parse.ts`, indexed by
fuel (the source recursion is unbounded through `dynamic` generators).  A
fresh unfinalized `ExpressionResult` is allocated before dispatching on the
node kind; its allocation index is returned together with the updated
store. -/
def parseInternal (eng : RegexEngine) (input : String) :
    Nat → Expr σ → LitRes σ → Option Nat → Nat → Store σ →
    Except EvalErr (Nat × Store σ)
  | 0, _, _, _, _, _ => .error .fuelExhausted
  | Nat.succ n, e, prev, parentRef, ordinal, st =>
    let nodeId := computeNodeId st e parentRef ordinal
    let ref := st.nodes.length
    let st1 : Store σ := ⟨st.nodes ++ [⟨nodeId, parentRef, none⟩]⟩
    match e with
    | .literal _ re sug upd =>
      let r := resolveRegexp re prev.state
      let fr := finalRegexpOf r
      let expressionInput := if prev.matchEnd ≠ 0 then strDrop input prev.matchEnd else input
      match eng fr expressionInput with
      | some (m, gs) =>
        let lr := LitRes.cons ref prev (strLen m + prev.matchEnd) true [] (upd prev.state gs)
        .ok (ref, st1.finalize ref [lr])
      | none =>
        let sugObjs := (resolveSuggestions sug prev.state input).map suggestionAsObj
        let lr := LitRes.cons ref prev prev.matchEnd false sugObjs prev.state
        .ok (ref, st1.finalize ref [lr])
    | .sequence _ children =>
      match children with
      | [] => .error (.configError "Sequence expression must have at least one child")
      | _ :: _ =>
        match seqFold (fun c i br s => parseInternal eng input n c br (some ref) i s)
            children 0 [prev] [] st1 with
        | .error err => .error err
        | .ok (results, st2) => .ok (ref, st2.finalize ref results)
    | .union _ alternates =>
      match alternates with
      | [] => .error (.configError "Union expression must have at least one child")
      | _ :: _ =>
        match threadAlternates (fun i alt s => parseInternal eng input n alt prev (some ref) i s)
            0 alternates st1 with
        | .error err => .error err
        | .ok (refs, st2) =>
          .ok (ref, st2.finalize ref (refs.flatMap (fun cr => resultsOf st2 cr)))
    | .dynamic _ fn =>
      let matched := getAllMatchedNodeIds st1 prev
      let gen := fn prev.state (fun i => matched.contains i)
      match parseInternal eng input n gen prev (some ref) 0 st1 with
      | .error err => .error err
      | .ok (cref, st2) => .ok (ref, st2.finalize ref (resultsOf st2 cref))

/-- `ParseResult` from `src/types/parse.ts`. -/
structure PResult (σ : Type) where
  matchingPart : String
  remainder : String
  state : σ
  suggestions : List SuggestionObj
deriving DecidableEq

/-- `noopExpressionResult(initialState)`: the store holding the dummy root
node (id `∅`) finalized with the synthetic starting literal result
(`matchEnd = 0`, `isMatch = true`, no `prev`). -/
def startStore (initState : σ) : Store σ :=
  ⟨[⟨"∅", none, some [LitRes.start 0 0 true [] initState]⟩]⟩

/-- The `parseInternal` call made by `parse`: the root expression evaluated
against the start result's `bestResult` with no parent and ordinal 0. -/
def parseRun (eng : RegexEngine) (fuel : Nat) (e : Expr σ) (initState : σ)
    (input : String) : Except EvalErr (Nat × Store σ) :=
  match bestResult? (resultsOf (startStore initState) 0) with
  | none => .error .internalError
  | some startBest =>
    parseInternal eng input fuel e startBest none 0 (startStore initState)

/-- The `suggestions` view of a finalized node: deduplicated suggestions of
the longest-match results. -/
def nodeSuggestions (st : Store σ) (ref : Nat) : List SuggestionObj :=
  dedupSuggestions ((longestMatchResults (resultsOf st ref)).flatMap (fun r => r.sugs))

/-- `parse` from the current snapshot of `src/parse.ts`. -/
def parse (eng : RegexEngine) (fuel : Nat) (e : Expr σ) (initState : σ)
    (input : String) : Except EvalErr (PResult σ) :=
  match parseRun eng fuel e initState input with
  | .error err => .error err
  | .ok (ref, st) =>
    match bestResult? (resultsOf st ref) with
    | none => .error .internalError
    | some best =>
      .ok ⟨strTake input best.matchEnd, strDrop input best.matchEnd,
        best.state, nodeSuggestions st ref⟩

/-! ## Builder layer (`src/expression.ts`, current snapshot) -/

namespace Expression

/-- `EMPTY_LITERAL = literal(/(?:)/)`: suggestions default to `[]`, the state
updater defaults to a no-op. -/
def EMPTY_LITERAL : Expr σ :=
  .literal none (.static ⟨"(?:)", ""⟩) (.static []) (fun s _ => s)

/-- `TERMINAL_LITERAL = literal(/$/)`. -/
def TERMINAL_LITERAL : Expr σ :=
  .literal none (.static ⟨"$", ""⟩) (.static []) (fun s _ => s)

/-- The `literal` builder (options resolved to their fields). -/
def literal (re : ReSpec σ) (sugs : SugSpec σ)
    (upd : σ → List (Option String) → σ) : Expr σ :=
  .literal none re sugs upd

/-- The `sequence` builder: throws on zero children. -/
def sequence : List (Expr σ) → Except String (Expr σ)
  | [] => .error "Sequence expression must have at least one child"
  | l => .ok (.sequence none l)

/-- The `union` builder: throws on zero children. -/
def union : List (Expr σ) → Except String (Expr σ)
  | [] => .error "Union expression must have at least one child"
  | l => .ok (.union none l)

/-- The `dynamic` builder; its generator takes only the state (the evaluator
passes `wasAlreadyMatched` as a second argument, which the builder's function
ignores, as extra arguments are ignored in JavaScript). -/
def dynamic (f : σ → Expr σ) : Expr σ := .dynamic none (fun s _ => f s)

/-- The `ifFalse` option of `conditional`. -/
inductive IfFalseOpt (σ : Type) where
  | matchEmpty
  | notMatch
  | expr (e : Expr σ)

/-- The `conditional` builder: a dynamic node choosing `ifTrue` when the
condition holds, else the expression named by `ifFalse` (`undefined` or
`"matchEmpty"` → the empty literal; `"notMatch"` → the `/$/` literal; a
custom expression otherwise). -/
def conditional (condition : σ → Bool) (ifTrue : Expr σ)
    (ifFalse : Option (IfFalseOpt σ)) : Expr σ :=
  dynamic fun state =>
    if condition state then ifTrue
    else
      match ifFalse with
      | none => EMPTY_LITERAL
      | some .matchEmpty => EMPTY_LITERAL
      | some .notMatch => TERMINAL_LITERAL
      | some (.expr e) => e

end Expression

/-! ## Latest combinator layer (`src/types/expression.ts`, second snapshot) -/

namespace Combinators

/-- `EMPTY_LITERAL` of this layer (same definition as the builder layer's). -/
def EMPTY_LITERAL : Expr σ := Expression.EMPTY_LITERAL

/-- `TERMINAL_LITERAL` of this layer. -/
def TERMINAL_LITERAL : Expr σ := Expression.TERMINAL_LITERAL

/-- The collapsing `sequence` builder: throws on zero children, returns the
sole child unchanged on one child, and builds a sequence node otherwise. -/
def sequence : List (Expr σ) → Except String (Expr σ)
  | [] => .error "Sequence expression must have at least one child"
  | [e] => .ok e
  | l => .ok (.sequence none l)

/-- The collapsing `union` builder. -/
def union : List (Expr σ) → Except String (Expr σ)
  | [] => .error "Union expression must have at least one child"
  | [e] => .ok e
  | l => .ok (.union none l)

/-- Marker expression standing for a thrown configuration error surfacing
where the source would raise inside lazily-run construction code; it is
unreachable for valid arguments. -/
def configErrorExpr (msg : String) : Expr σ :=
  .literal none (.static ⟨"CONFIG_ERROR", msg⟩) (.static []) (fun s _ => s)

/-- `optional(E) = union(EMPTY_LITERAL, E)`; a two-alternate union cannot
throw. -/
def optional (e : Expr σ) : Expr σ :=
  match union [EMPTY_LITERAL, e] with
  | .ok x => x
  | .error msg => configErrorExpr msg

/-- The `max` option of `repeated`: a number or `Infinity`. -/
inductive ENum where
  | fin (v : Int)
  | inf
deriving DecidableEq, Repr

/-- `max < min` on the option value. -/
def ENum.ltInt : ENum → Int → Bool
  | .inf, _ => false
  | .fin v, m => v < m

/-- `Math.max(0, max - 1)`: `Infinity` stays `Infinity`. -/
def ENum.decr : ENum → ENum
  | .inf => .inf
  | .fin v => .fin (max 0 (v - 1))

/-- `max === 0`. -/
def ENum.isZero : ENum → Bool
  | .fin v => v = 0
  | .inf => false

/-- `repeated(E, {min, max})` from the latest combinator layer.  The
recursive continuation is built lazily inside a `dynamic` node; `fuel`
bounds the depth of that lazy unfolding in the shallow embedding (the source
builds the continuation as a closure re-invoked by the evaluator). -/
def repeated (fuel : Nat) (e : Expr σ) (minv : Int) (maxv : ENum) :
    Except String (Expr σ) :=
  if minv < 0 then .error "Minimum number of repetitions must be non-negative"
  else if maxv.ltInt minv then
    .error "Maximum number of repetitions must be greater than the minimum"
  else
    let cont : Expr σ := .dynamic none (fun _ _ =>
      match fuel with
      | 0 => configErrorExpr "continuation fuel exhausted"
      | Nat.succ n =>
        match repeated n e (max 0 (minv - 1)) maxv.decr with
        | .ok ex => ex
        | .error msg => configErrorExpr msg)
    let nextExpr : Expr σ :=
      if maxv.isZero then TERMINAL_LITERAL
      else
        match sequence [e, cont] with
        | .ok x => x
        | .error msg => configErrorExpr msg
    .ok (if minv = 0 then optional nextExpr else nextExpr)

end Combinators

/-! ## Claim-worded specification definitions (for refinement comparison) -/

/-- Modelled from the claim's words (C5): the stated conflict resolution.
`specKeepNew new old` holds when the newly-seen suggestion outranks the kept
one: a grouped suggestion outranks an ungrouped one; with the same group or
both ungrouped, the higher numeric priority (default 0) wins; with different
groups, the higher group priority (default 0) wins; otherwise the
first-encountered suggestion is kept. -/
def specKeepNew (nw old : SuggestionObj) : Bool :=
  match nw.group, old.group with
  | some _, none => true
  | none, some _ => false
  | _, _ =>
    if sameGroupRef nw.group old.group then
      nw.priority.getD 0 > old.priority.getD 0
    else
      ((nw.group.bind (·.priority)).getD 0) > ((old.group.bind (·.priority)).getD 0)

/-- One step of the claim-worded merge. -/
def specDedupStep (acc : Entries) (s : SuggestionObj) : Entries :=
  match lookupEntry acc s.label with
  | none => acc ++ [(s.label, s)]
  | some existing => if specKeepNew s existing then updateEntry acc s.label s else acc

/-- The claim-worded merge's record. -/
def specDedupEntries (l : List SuggestionObj) : Entries := l.foldl specDedupStep []

/-- Modelled from the claim's words (C5): keep one winner per label by the
stated total order, and list the winners in the order each label was first
seen. -/
def specDedupSuggestions (l : List SuggestionObj) : List SuggestionObj :=
  (specDedupEntries l).map (·.2)

/-! ## Concrete objects for witnesses and counterexamples -/

/-- A literal on a static plain pattern that overwrites a string state. -/
def markLit (id : Option String) (src mark : String) : Expr String :=
  .literal id (.static ⟨src, ""⟩) (.static []) (fun _ _ => mark)

/-- The C3 probe grammar: a sequence of a union with id `U` containing one
literal with id `L` matching `a`, followed by a dynamic node that asks
`wasAlreadyMatched("U")` and selects a literal matching `X` (state `"X"`) if
so, else a literal matching `Y` (state `"Y"`). -/
def c3expr : Expr String :=
  .sequence none [
    .union (some "U") [markLit (some "L") "a" "A"],
    .dynamic none (fun _ was =>
      if was "U" then markLit none "X" "X" else markLit none "Y" "Y")]

/-- The store of the C3 probe run on input `"aY"`. -/
def c3store : Store String :=
  ((parseRun miniExec 6 c3expr "" "aY").toOption.map (·.2)).getD ⟨[]⟩

/-- A union of literals `foo` and `foobar` (spec §8, example 2). -/
def unionFooExpr : Expr Unit :=
  .union none [
    .literal none (.static ⟨"foo", ""⟩) (.static [Suggestion.str "continue"]) (fun s _ => s),
    .literal none (.static ⟨"foobar", ""⟩) (.static []) (fun s _ => s)]

/-- An ungrouped suggestion object with the given label. -/
def bare (l : String) : SuggestionObj := ⟨l, none, none, none⟩

/-- Group object 1 (identity 1). -/
def grpA : SugGroup := ⟨1, "g1", none⟩

/-- Group object 2 (identity 2). -/
def grpB : SugGroup := ⟨2, "g2", none⟩

/-- Suggestion in group 1 with priority 0. -/
def sugA : SuggestionObj := ⟨"x", none, some grpA, some 0⟩

/-- Suggestion in group 1 with priority 10. -/
def sugB : SuggestionObj := ⟨"x", none, some grpA, some 10⟩

/-- Suggestion in group 2 with priority 99. -/
def sugC : SuggestionObj := ⟨"x", none, some grpB, some 99⟩

/-- The synthetic root literal result over a unit state. -/
def rootLR : LitRes Unit := LitRes.start 0 0 true [] ()

/-- Store extension: evaluation only appends nodes and finalizes its own
freshly-allocated ones, so every node present before a call is untouched. -/
def StoreExt (st st' : Store σ) : Prop :=
  st.nodes.length ≤ st'.nodes.length ∧
  ∀ i, i < st.nodes.length → st'.nodes.get? i = st.nodes.get? i

/-- The induction package for one `parseInternal` call: the returned
reference is the allocation index, old nodes are untouched, the finalized
node's branch results are non-empty, every branch result extends the prior
`matchEnd`, every literal result recorded anywhere during the call is
bounded by some branch result of the returned node, and — for a well-formed
engine (`W`) and an in-range prior — every recorded `matchEnd` stays within
the input length `L`. -/
def PISpec (W : Prop) (L : Nat) (prev : LitRes σ) (st : Store σ) (ref : Nat)
    (st' : Store σ) : Prop :=
  ref = st.nodes.length ∧
  StoreExt st st' ∧
  st.nodes.length < st'.nodes.length ∧
  resultsOf st' ref ≠ [] ∧
  (∀ r ∈ resultsOf st' ref, prev.matchEnd ≤ r.matchEnd) ∧
  (∀ i r, st.nodes.length ≤ i → r ∈ resultsOf st' i →
    ∃ r' ∈ resultsOf st' ref, r.matchEnd ≤ r'.matchEnd) ∧
  (W → prev.matchEnd ≤ L →
    ∀ i r, st.nodes.length ≤ i → r ∈ resultsOf st' i → r.matchEnd ≤ L)

/-- A concrete literal matching `a`, with one static suggestion. -/
def cLitA : Expr Unit :=
  .literal none (.static ⟨"a", ""⟩) (.static [Suggestion.str "hint"]) (fun s _ => s)

/-- A concrete literal matching `z`, with one static suggestion. -/
def cLitZ : Expr Unit :=
  .literal none (.static ⟨"z", ""⟩) (.static [Suggestion.str "hint"]) (fun s _ => s)

end LangParse

namespace LangParse

theorem compare_pos_iff_specKeepNew (a b : SuggestionObj) :
    compareSuggestionPriority a b > 0 ↔ specKeepNew a b = true := by
  unfold compareSuggestionPriority specKeepNew
  cases ha : a.group with
  | none =>
    cases hb : b.group with
    | none => simp [sameGroupRef]
    | some g => simp [sameGroupRef]
  | some g1 =>
    cases hb : b.group with
    | none => simp [sameGroupRef]
    | some g2 =>
      by_cases hg : g1.gid = g2.gid
      · simp [sameGroupRef, hg]
      · simp [sameGroupRef, hg]

theorem dedupStep_def (acc : Entries) (s : SuggestionObj) :
    dedupStep acc s =
      match lookupEntry acc s.label with
      | none => acc ++ [(s.label, s)]
      | some ex => if compareSuggestionPriority s ex > 0 then updateEntry acc s.label s else acc := rfl

theorem specDedupStep_def (acc : Entries) (s : SuggestionObj) :
    specDedupStep acc s =
      match lookupEntry acc s.label with
      | none => acc ++ [(s.label, s)]
      | some ex => if specKeepNew s ex then updateEntry acc s.label s else acc := rfl

theorem dedupStep_eq_specDedupStep : @dedupStep = @specDedupStep := by
  funext acc s
  rw [dedupStep_def, specDedupStep_def]
  cases h : lookupEntry acc s.label with
  | none => rfl
  | some ex =>
    simp only []
    by_cases hc : compareSuggestionPriority s ex > 0
    · rw [if_pos hc, if_pos ((compare_pos_iff_specKeepNew s ex).mp hc)]
    · rw [if_neg hc, if_neg (fun hs => hc ((compare_pos_iff_specKeepNew s ex).mpr hs))]

theorem dedupEntries_eq_specDedupEntries (l : List SuggestionObj) :
    dedupEntries l = specDedupEntries l := by
  unfold dedupEntries specDedupEntries
  rw [dedupStep_eq_specDedupStep]

theorem lookupEntry_eq_none (es : Entries) (k : String) :
    lookupEntry es k = none ↔ k ∉ es.map Prod.fst := by
  induction es with
  | nil => simp [lookupEntry]
  | cons p rest ih =>
    obtain ⟨k', v'⟩ := p
    by_cases h : k' = k
    · simp [lookupEntry, h]
    · simp [lookupEntry, h, ih, Ne.symm h]

theorem updateEntry_map_fst (es : Entries) (k : String) (v : SuggestionObj) :
    (updateEntry es k v).map Prod.fst = es.map Prod.fst := by
  induction es with
  | nil => rfl
  | cons p rest ih =>
    obtain ⟨k', v'⟩ := p
    by_cases h : k' = k
    · simp [updateEntry, h]
    · simp [updateEntry, h, ih]

theorem mem_updateEntry (es : Entries) (k : String) (v : SuggestionObj) (p : String × SuggestionObj) :
    p ∈ updateEntry es k v → p ∈ es ∨ p = (k, v) := by
  induction es with
  | nil => intro h; simp [updateEntry] at h
  | cons q rest ih =>
    obtain ⟨k', v'⟩ := q
    by_cases h : k' = k
    · intro hm
      simp [updateEntry, h] at hm
      rcases hm with hm | hm
      · right; exact hm
      · left; simp [hm]
    · intro hm
      simp [updateEntry, h] at hm
      rcases hm with hm | hm
      · left; simp [hm]
      · rcases ih hm with h1 | h1
        · left; simp [h1]
        · right; exact h1

theorem labels_foldl_dedupStep (l : List SuggestionObj) :
    ∀ acc, (∀ p ∈ acc, (p : String × SuggestionObj).2.label = p.1) →
      ∀ p ∈ l.foldl dedupStep acc, (p : String × SuggestionObj).2.label = p.1 := by
  induction l with
  | nil => intro acc h p hp; exact h p hp
  | cons s t ih =>
    intro acc h p hp
    refine ih (dedupStep acc s) ?_ p hp
    intro q hq
    rw [dedupStep_def] at hq
    cases hl : lookupEntry acc s.label with
    | none =>
      rw [hl] at hq
      simp only [] at hq
      rcases List.mem_append.mp hq with h1 | h1
      · exact h q h1
      · simp at h1; simp [h1]
    | some ex =>
      rw [hl] at hq
      simp only [] at hq
      by_cases hc : compareSuggestionPriority s ex > 0
      · rw [if_pos hc] at hq
        rcases mem_updateEntry _ _ _ _ hq with h1 | h1
        · exact h q h1
        · simp [h1]
      · rw [if_neg hc] at hq
        exact h q hq

theorem keys_nodup_foldl_dedupStep (l : List SuggestionObj) :
    ∀ acc, ((acc : Entries).map Prod.fst).Nodup →
      ((l.foldl dedupStep acc).map Prod.fst).Nodup := by
  induction l with
  | nil => intro acc h; exact h
  | cons s t ih =>
    intro acc h
    refine ih (dedupStep acc s) ?_
    rw [dedupStep_def]
    cases hl : lookupEntry acc s.label with
    | none =>
      simp only []
      rw [List.map_append]
      simp [List.nodup_append, h]
      intro x hx
      exact ((lookupEntry_eq_none acc s.label).mp hl) (List.mem_map.mpr ⟨(s.label, x), hx, rfl⟩)
    | some ex =>
      simp only []
      by_cases hc : compareSuggestionPriority s ex > 0
      · rw [if_pos hc, updateEntry_map_fst]
        exact h
      · rw [if_neg hc]
        exact h

theorem build_from_fresh (l : List SuggestionObj) :
    ∀ acc, ((l.map (fun s => s.label)).Nodup) →
      (∀ s ∈ l, lookupEntry acc s.label = none) →
      l.foldl dedupStep acc = acc ++ l.map (fun s => (s.label, s)) := by
  induction l with
  | nil => intro acc _ _; simp
  | cons s t ih =>
    intro acc hnd hfresh
    have hs : lookupEntry acc s.label = none := hfresh s (by simp)
    have hstep : dedupStep acc s = acc ++ [(s.label, s)] := by
      rw [dedupStep_def, hs]
    rw [List.foldl_cons, hstep]
    rw [ih (acc ++ [(s.label, s)]) (by simp at hnd; exact hnd.2) ?_]
    · simp
    · intro x hx
      rw [lookupEntry_eq_none]
      rw [List.map_append]
      simp only [List.map_cons, List.map_nil]
      intro hmem
      rcases List.mem_append.mp hmem with h1 | h1
      · exact ((lookupEntry_eq_none acc x.label).mp (hfresh x (by simp [hx]))) h1
      · simp at h1
        simp at hnd
        exact hnd.1 x hx h1

end LangParse

namespace LangParse

theorem mem_insertNatKey (x y : Nat × SuggestionObj) (l : List (Nat × SuggestionObj)) :
    y ∈ insertNatKey x l ↔ y = x ∨ y ∈ l := by
  induction l with
  | nil => simp [insertNatKey]
  | cons z zs ih =>
    unfold insertNatKey
    by_cases h : x.1 ≤ z.1
    · simp [if_pos h]
    · simp only [if_neg h, List.mem_cons, ih]
      tauto

theorem insertNatKey_perm (x : Nat × SuggestionObj) (l : List (Nat × SuggestionObj)) :
    List.Perm (insertNatKey x l) (x :: l) := by
  induction l with
  | nil => simp [insertNatKey]
  | cons z zs ih =>
    unfold insertNatKey
    by_cases h : x.1 ≤ z.1
    · simp [h]
    · simp only [if_neg h]
      exact (ih.cons z).trans (List.Perm.swap x z zs)

theorem sortNatKeys_perm (l : List (Nat × SuggestionObj)) :
    List.Perm (sortNatKeys l) l := by
  induction l with
  | nil => simp [sortNatKeys]
  | cons x xs ih =>
    unfold sortNatKeys
    exact (insertNatKey_perm x (sortNatKeys xs)).trans (ih.cons x)

theorem pairwise_insertNatKey (x : Nat × SuggestionObj) (l : List (Nat × SuggestionObj))
    (h : l.Pairwise (fun a b => a.1 ≤ b.1)) :
    (insertNatKey x l).Pairwise (fun a b => a.1 ≤ b.1) := by
  induction l with
  | nil => simp [insertNatKey]
  | cons z zs ih =>
    unfold insertNatKey
    by_cases hle : x.1 ≤ z.1
    · rw [if_pos hle]
      refine List.Pairwise.cons ?_ h
      intro y hy
      rcases List.mem_cons.mp hy with h1 | h1
      · rw [h1]; exact hle
      · exact le_trans hle ((List.pairwise_cons.mp h).1 y h1)
    · rw [if_neg hle]
      rcases List.pairwise_cons.mp h with ⟨hz, hzs⟩
      refine List.Pairwise.cons ?_ (ih hzs)
      intro y hy
      rcases (mem_insertNatKey x y zs).mp hy with h1 | h1
      · rw [h1]; omega
      · exact hz y h1

theorem pairwise_sortNatKeys (l : List (Nat × SuggestionObj)) :
    (sortNatKeys l).Pairwise (fun a b => a.1 ≤ b.1) := by
  induction l with
  | nil => simp [sortNatKeys]
  | cons x xs ih =>
    unfold sortNatKeys
    exact pairwise_insertNatKey x (sortNatKeys xs) ih

theorem insertNatKey_of_le (x : Nat × SuggestionObj) (l : List (Nat × SuggestionObj))
    (h : ∀ y ∈ l, x.1 ≤ y.1) : insertNatKey x l = x :: l := by
  cases l with
  | nil => rfl
  | cons z zs =>
    unfold insertNatKey
    rw [if_pos (h z (by simp))]

theorem sortNatKeys_of_pairwise (l : List (Nat × SuggestionObj))
    (h : l.Pairwise (fun a b => a.1 ≤ b.1)) : sortNatKeys l = l := by
  induction l with
  | nil => rfl
  | cons x xs ih =>
    rcases List.pairwise_cons.mp h with ⟨hx, hxs⟩
    unfold sortNatKeys
    rw [ih hxs, insertNatKey_of_le x xs hx]

theorem filterMap_keyIdx_of_some (L : List (Nat × SuggestionObj))
    (h : ∀ x ∈ L, keyIdx? (x : Nat × SuggestionObj).2.label = some x.1) :
    (L.map (·.2)).filterMap (fun s => (keyIdx? s.label).map (fun n => (n, s))) = L := by
  induction L with
  | nil => rfl
  | cons x xs ih =>
    simp only [List.map_cons, List.filterMap_cons]
    rw [h x (by simp)]
    simp only [Option.map_some']
    rw [ih (fun y hy => h y (by simp [hy]))]

theorem filterMap_keyIdx_of_none (B : List SuggestionObj)
    (h : ∀ b ∈ B, keyIdx? (b : SuggestionObj).label = none) :
    B.filterMap (fun s => (keyIdx? s.label).map (fun n => (n, s))) = [] := by
  induction B with
  | nil => rfl
  | cons b bs ih =>
    simp only [List.filterMap_cons]
    rw [h b (by simp)]
    simp only [Option.map_none']
    exact ih (fun y hy => h y (by simp [hy]))

theorem filter_isNone_of_some (L : List (Nat × SuggestionObj))
    (h : ∀ x ∈ L, keyIdx? (x : Nat × SuggestionObj).2.label = some x.1) :
    (L.map (·.2)).filter (fun s => (keyIdx? s.label).isNone) = [] := by
  induction L with
  | nil => rfl
  | cons x xs ih =>
    simp only [List.map_cons, List.filter_cons]
    rw [h x (by simp)]
    simp only [Option.isNone_some]
    exact ih (fun y hy => h y (by simp [hy]))

theorem filter_isNone_of_none (B : List SuggestionObj)
    (h : ∀ b ∈ B, keyIdx? (b : SuggestionObj).label = none) :
    B.filter (fun s => (keyIdx? s.label).isNone) = B := by
  induction B with
  | nil => rfl
  | cons b bs ih =>
    simp only [List.filter_cons]
    rw [h b (by simp)]
    simp [ih (fun y hy => h y (by simp [hy]))]

end LangParse

namespace LangParse

theorem lookupEntry_nil (k : String) : lookupEntry [] k = none := rfl

theorem labels_dedupEntries (l : List SuggestionObj) :
    ∀ p ∈ dedupEntries l, (p : String × SuggestionObj).2.label = p.1 :=
  labels_foldl_dedupStep l [] (by intro p hp; simp at hp)

theorem keys_nodup_dedupEntries (l : List SuggestionObj) :
    ((dedupEntries l).map Prod.fst).Nodup :=
  keys_nodup_foldl_dedupStep l [] (by simp)

theorem objectValues_def (es : Entries) :
    objectValues es =
      (sortNatKeys (es.filterMap (fun p => (keyIdx? p.1).map (fun n => (n, p.2))))).map (·.2)
        ++ (es.filter (fun p => (keyIdx? p.1).isNone)).map (·.2) := rfl

theorem keyIdx_of_mem_sortX (es : Entries) (h : ∀ p ∈ es, (p : String × SuggestionObj).2.label = p.1) :
    ∀ x ∈ sortNatKeys (es.filterMap (fun p => (keyIdx? p.1).map (fun n => (n, p.2)))),
      keyIdx? (x : Nat × SuggestionObj).2.label = some x.1 := by
  intro x hx
  have hx' := ((sortNatKeys_perm _).mem_iff).mp hx
  rcases List.mem_filterMap.mp hx' with ⟨p, hp, hmap⟩
  cases hk : keyIdx? p.1 with
  | none => rw [hk] at hmap; simp at hmap
  | some n =>
    rw [hk] at hmap
    simp at hmap
    rw [← hmap]
    simp only []
    rw [h p hp, hk]

theorem keyIdx_of_mem_rest (es : Entries) (h : ∀ p ∈ es, (p : String × SuggestionObj).2.label = p.1) :
    ∀ b ∈ (es.filter (fun p => (keyIdx? p.1).isNone)).map (·.2),
      keyIdx? (b : SuggestionObj).label = none := by
  intro b hb
  rcases List.mem_map.mp hb with ⟨p, hp, hpb⟩
  rcases List.mem_filter.mp hp with ⟨hpes, hnone⟩
  rw [← hpb, h p hpes]
  exact Option.isNone_iff_eq_none.mp hnone

theorem labels_filterMap_keyIdx (es : Entries) (h : ∀ p ∈ es, (p : String × SuggestionObj).2.label = p.1) :
    (es.filterMap (fun p => (keyIdx? p.1).map (fun n => (n, p.2)))).map (fun x => x.2.label)
      = (es.filter (fun p => (keyIdx? p.1).isSome)).map Prod.fst := by
  induction es with
  | nil => rfl
  | cons p ps ih =>
    have hp := h p (by simp)
    have ih' := ih (fun q hq => h q (by simp [hq]))
    cases hk : keyIdx? p.1 with
    | none =>
      simp only [List.filterMap_cons, List.filter_cons, hk]
      simp [ih']
    | some n =>
      simp only [List.filterMap_cons, List.filter_cons, hk]
      simp [ih', hp]

theorem labels_objectValues_perm (es : Entries)
    (h : ∀ p ∈ es, (p : String × SuggestionObj).2.label = p.1) :
    List.Perm ((objectValues es).map (fun s => s.label)) (es.map Prod.fst) := by
  rw [objectValues_def, List.map_append, List.map_map, List.map_map]
  have hA : List.Perm
      ((sortNatKeys (es.filterMap (fun p => (keyIdx? p.1).map (fun n => (n, p.2))))).map
        ((fun s => s.label) ∘ (·.2)))
      ((es.filterMap (fun p => (keyIdx? p.1).map (fun n => (n, p.2)))).map
        ((fun s => s.label) ∘ (·.2))) :=
    (sortNatKeys_perm _).map _
  have hA2 : (es.filterMap (fun p => (keyIdx? p.1).map (fun n => (n, p.2)))).map
      ((fun s => s.label) ∘ (·.2)) = (es.filter (fun p => (keyIdx? p.1).isSome)).map Prod.fst := by
    rw [← labels_filterMap_keyIdx es h]
    rfl
  have hB : (es.filter (fun p => (keyIdx? p.1).isNone)).map ((fun s => s.label) ∘ (·.2))
      = (es.filter (fun p => (keyIdx? p.1).isNone)).map Prod.fst := by
    refine List.map_congr_left ?_
    intro p hp
    exact h p (List.mem_filter.mp hp).1
  refine List.Perm.trans (List.Perm.append (hA.trans (by rw [hA2])) (by rw [hB])) ?_
  have hsplit : List.Perm
      ((es.filter (fun p => (keyIdx? p.1).isSome)) ++ es.filter (fun p => (keyIdx? p.1).isNone)) es := by
    have := List.filter_append_perm (fun p => (keyIdx? (p : String × SuggestionObj).1).isSome) es
    have hconv : es.filter (fun p => !(keyIdx? (p : String × SuggestionObj).1).isSome)
        = es.filter (fun p => (keyIdx? p.1).isNone) := by
      refine List.filter_congr ?_
      intro p _
      cases keyIdx? p.1 <;> rfl
    rw [hconv] at this
    exact this
  rw [← List.map_append]
  exact hsplit.map Prod.fst

theorem dedupSuggestions_labels_nodup (l : List SuggestionObj) :
    ((dedupSuggestions l).map (fun s => s.label)).Nodup := by
  unfold dedupSuggestions
  exact ((labels_objectValues_perm (dedupEntries l) (labels_dedupEntries l)).nodup_iff).mpr
    (keys_nodup_dedupEntries l)

theorem objectValues_map_pair (D : List SuggestionObj)
    (hD : ∃ es, (∀ p ∈ es, (p : String × SuggestionObj).2.label = p.1) ∧ D = objectValues es) :
    objectValues (D.map (fun s => (s.label, s))) = D := by
  rcases hD with ⟨es, hlab, hDes⟩
  rw [objectValues_def]
  rw [List.filterMap_map, List.filter_map]
  have hsplitD : D =
      (sortNatKeys (es.filterMap (fun p => (keyIdx? p.1).map (fun n => (n, p.2))))).map (·.2)
        ++ (es.filter (fun p => (keyIdx? p.1).isNone)).map (·.2) := hDes
  have hFA := keyIdx_of_mem_sortX es hlab
  have hFB := keyIdx_of_mem_rest es hlab
  have hcomp1 : ((fun p => (keyIdx? (p : String × SuggestionObj).1).map (fun n => (n, p.2)))
      ∘ (fun s => (s.label, s))) = (fun s => (keyIdx? s.label).map (fun n => (n, s))) := rfl
  have hcomp2 : ((fun p => (keyIdx? (p : String × SuggestionObj).1).isNone)
      ∘ (fun s => (s.label, s))) = (fun s => (keyIdx? s.label).isNone) := rfl
  rw [hcomp1, hcomp2]
  have hfm : D.filterMap (fun s => (keyIdx? s.label).map (fun n => (n, s)))
      = sortNatKeys (es.filterMap (fun p => (keyIdx? p.1).map (fun n => (n, p.2)))) := by
    rw [hsplitD, List.filterMap_append]
    rw [filterMap_keyIdx_of_some _ hFA, filterMap_keyIdx_of_none _ hFB]
    simp
  have hfl : D.filter (fun s => (keyIdx? s.label).isNone)
      = (es.filter (fun p => (keyIdx? p.1).isNone)).map (·.2) := by
    rw [hsplitD, List.filter_append]
    rw [filter_isNone_of_some _ hFA, filter_isNone_of_none _ hFB]
    simp
  rw [hfm, hfl]
  rw [sortNatKeys_of_pairwise _ (pairwise_sortNatKeys _)]
  rw [List.map_map]
  have hid : List.map ((fun (x : String × SuggestionObj) => x.2) ∘ (fun (s : SuggestionObj) => (s.label, s)))
      ((es.filter (fun p => (keyIdx? p.1).isNone)).map (·.2))
      = (es.filter (fun p => (keyIdx? p.1).isNone)).map (·.2) := by
    simp
  rw [hid, hsplitD]

theorem dedupSuggestions_idem (l : List SuggestionObj) :
    dedupSuggestions (dedupSuggestions l) = dedupSuggestions l := by
  have hnodup := dedupSuggestions_labels_nodup l
  have hentries : dedupEntries (dedupSuggestions l)
      = (dedupSuggestions l).map (fun s => (s.label, s)) := by
    unfold dedupEntries
    exact build_from_fresh _ [] hnodup (by intro s _; rfl)
  show objectValues (dedupEntries (dedupSuggestions l)) = dedupSuggestions l
  rw [hentries]
  exact objectValues_map_pair _ ⟨dedupEntries l, labels_dedupEntries l, rfl⟩

end LangParse

namespace LangParse

/-- C5 (counterexample): on the input `[{label:"1"}, {label:"0"}]` the merge
keeps both labels but lists them in ascending numeric key order (`"0"` then
`"1"`), not in the first-seen insertion order the claim states. -/
theorem C5_claim_counterexample :
    dedupSuggestions [bare "1", bare "0"] = [bare "0", bare "1"] ∧
    specDedupSuggestions [bare "1", bare "0"] = [bare "1", bare "0"] ∧
    dedupSuggestions [bare "1", bare "0"] ≠ specDedupSuggestions [bare "1", bare "0"] := by
  decide

/-- C5 (amended): the merge keeps exactly one suggestion per label, resolving
conflicts by the claim's total order, but the output lists the winners with
canonical-array-index labels first in ascending numeric order and the
remaining labels in first-seen insertion order. -/
theorem C5_merge_policy_amended (l : List SuggestionObj) :
    dedupSuggestions l = objectValues (specDedupEntries l) := by
  unfold dedupSuggestions
  rw [dedupEntries_eq_specDedupEntries]

/-- C6 (counterexample): the merge is not order-independent: for the grouped
suggestions `sugA`/`sugC` in distinct equal-priority groups, the comparator
ties, so whichever is seen first survives and a permutation of the input
changes the output. -/
theorem C6_claim_counterexample :
    List.Perm [sugA, sugC, sugB] [sugC, sugA, sugB] ∧
    dedupSuggestions [sugA, sugC, sugB] ≠ dedupSuggestions [sugC, sugA, sugB] := by
  constructor
  · exact List.Perm.swap sugC sugA [sugB]
  · decide

/-- C6 (amended): the merge is idempotent (running it on its own output
returns that output unchanged); order-independence fails in general. -/
theorem C6_merge_idempotent_amended (l : List SuggestionObj) :
    dedupSuggestions (dedupSuggestions l) = dedupSuggestions l :=
  dedupSuggestions_idem l

/-- C4 (counterexample): anchoring does not preserve the pattern's flags.
For the pattern `/foo/i` the engine executes `new RegExp("^foo")`, whose
flags are empty, so the case-insensitive match against `"FOO"` that the
flag-preserving variant `/^foo/i` performs is lost. -/
theorem C4_claim_counterexample :
    finalRegexpOf ⟨"foo", "i"⟩ = ⟨"^foo", ""⟩ ∧
    (finalRegexpOf ⟨"foo", "i"⟩).flags ≠ "i" ∧
    miniExec ⟨"^foo", "i"⟩ "FOO" = some ("FOO", []) ∧
    miniExec (finalRegexpOf ⟨"foo", "i"⟩) "FOO" = none := by
  decide

/-- C4 (amended): a pattern whose source already begins with `^` is executed
unchanged (flags intact); any other pattern is replaced by a start-anchored
variant whose source is the original source with `^` prepended and whose
flags are reset to the defaults (empty), not the original pattern's flags. -/
theorem C4_anchoring_amended (r : RegexpData) :
    (startsWithCaret r.source = true → finalRegexpOf r = r) ∧
    (startsWithCaret r.source = false →
      (finalRegexpOf r).source.data = '^' :: r.source.data ∧ (finalRegexpOf r).flags = "") := by
  unfold finalRegexpOf
  constructor
  · intro h; rw [if_pos h]
  · intro h; rw [if_neg (by simp [h])]
    exact ⟨rfl, rfl⟩

/-- Witness for C4 (amended) at the concrete patterns `/^foo/i` and `/foo/i`. -/
theorem C4_anchoring_amended_witness :
    finalRegexpOf ⟨"^foo", "i"⟩ = ⟨"^foo", "i"⟩ ∧ (finalRegexpOf ⟨"foo", "i"⟩).flags = "" :=
  ⟨(C4_anchoring_amended ⟨"^foo", "i"⟩).1 (by decide),
   ((C4_anchoring_amended ⟨"foo", "i"⟩).2 (by decide)).2⟩

/-- C10: in the latest combinator layer, `sequence` and `union` applied to
exactly one child return that child expression itself, while two or more
children produce a genuine sequence/union node (with no `id`). -/
theorem C10_single_child_collapse :
    (∀ (σ : Type) (e : Expr σ),
      Combinators.sequence [e] = .ok e ∧ Combinators.union [e] = .ok e) ∧
    (∀ (σ : Type) (e1 e2 : Expr σ) (rest : List (Expr σ)),
      Combinators.sequence (e1 :: e2 :: rest) = .ok (.sequence none (e1 :: e2 :: rest)) ∧
      Combinators.union (e1 :: e2 :: rest) = .ok (.union none (e1 :: e2 :: rest))) := by
  constructor
  · intro σ e; exact ⟨rfl, rfl⟩
  · intro σ e1 e2 rest; exact ⟨rfl, rfl⟩

theorem repeated_isOk_iff (σ : Type) (fuel : Nat) (e : Expr σ) (minv : Int)
    (maxv : Combinators.ENum) :
    (Combinators.repeated fuel e minv maxv).isOk = true ↔
      ¬(minv < 0 ∨ maxv.ltInt minv = true) := by
  unfold Combinators.repeated
  by_cases h1 : minv < 0
  · rw [if_pos h1]
    simp [Except.isOk, Except.toBool, h1]
  · rw [if_neg h1]
    by_cases h2 : maxv.ltInt minv = true
    · rw [if_pos h2]
      simp [Except.isOk, Except.toBool, h1, h2]
    · rw [if_neg h2]
      simp [Except.isOk, Except.toBool, h1, h2]

/-- C8: configuration errors are raised eagerly at construction time and only
then: `sequence`/`union` throw exactly on zero children; `repeated` throws
exactly when `min < 0` or `max < min`; and for valid bounds the arguments the
lazily-built continuation passes to the recursive `repeated` call are again
valid, so the construction run inside the `dynamic` node cannot raise. -/
theorem C8_construction_errors :
    (∀ (σ : Type) (l : List (Expr σ)), (Expression.sequence l).isOk = true ↔ l ≠ []) ∧
    (∀ (σ : Type) (l : List (Expr σ)), (Expression.union l).isOk = true ↔ l ≠ []) ∧
    (∀ (σ : Type) (fuel : Nat) (e : Expr σ) (minv : Int) (maxv : Combinators.ENum),
      ((Combinators.repeated fuel e minv maxv).isOk = true ↔
        ¬(minv < 0 ∨ maxv.ltInt minv = true)) ∧
      (¬(minv < 0 ∨ maxv.ltInt minv = true) →
        ∀ n : Nat,
          (Combinators.repeated n e (max 0 (minv - 1)) maxv.decr).isOk = true)) := by
  refine ⟨?_, ?_, ?_⟩
  · intro σ l
    cases l with
    | nil => simp [Expression.sequence, Except.isOk, Except.toBool]
    | cons a as => simp [Expression.sequence, Except.isOk, Except.toBool]
  · intro σ l
    cases l with
    | nil => simp [Expression.union, Except.isOk, Except.toBool]
    | cons a as => simp [Expression.union, Except.isOk, Except.toBool]
  · intro σ fuel e minv maxv
    refine ⟨repeated_isOk_iff σ fuel e minv maxv, ?_⟩
    intro hvalid n
    refine (repeated_isOk_iff σ n e (max 0 (minv - 1)) maxv.decr).mpr ?_
    push_neg at hvalid ⊢
    refine ⟨by omega, ?_⟩
    cases maxv with
    | inf => simp [Combinators.ENum.decr, Combinators.ENum.ltInt]
    | fin v =>
      have hv : ¬ v < minv := by
        have := hvalid.2
        simpa [Combinators.ENum.ltInt] using this
      simp only [Combinators.ENum.decr, Combinators.ENum.ltInt]
      simp
      omega

/-- Witness for C8 at concrete inputs: one-child `sequence`/`union` construct,
`repeated` with `min = 2`, `max = 3` constructs, and the continuation's
arguments `min = 1`, `max = 2` construct as well. -/
theorem C8_construction_errors_witness :
    (Expression.sequence [Expression.EMPTY_LITERAL (σ := Unit)]).isOk = true ∧
    (Expression.union [Expression.EMPTY_LITERAL (σ := Unit)]).isOk = true ∧
    (Combinators.repeated 1 (Combinators.EMPTY_LITERAL (σ := Unit)) 2 (.fin 3)).isOk = true ∧
    (Combinators.repeated 1 (Combinators.EMPTY_LITERAL (σ := Unit)) (max 0 (2 - 1))
      (Combinators.ENum.fin 3).decr).isOk = true := by
  refine ⟨?_, ?_, ?_, ?_⟩
  · exact (C8_construction_errors.1 Unit _).mpr (List.cons_ne_nil _ _)
  · exact (C8_construction_errors.2.1 Unit _).mpr (List.cons_ne_nil _ _)
  · exact ((C8_construction_errors.2.2 Unit 1 _ 2 (.fin 3)).1).mpr (by decide)
  · exact ((C8_construction_errors.2.2 Unit 1 _ 2 (.fin 3)).2) (by decide) 1

end LangParse

namespace LangParse

theorem toOption_eq_ok {ε α : Type _} (e : Except ε α) (a : α) (h : e.toOption = some a) :
    e = .ok a := by
  cases e with
  | error err => simp [Except.toOption] at h
  | ok v => simp [Except.toOption] at h; rw [h]

theorem setResults_append (l1 : List (NodeData σ)) (nd : NodeData σ) (l2 : List (NodeData σ))
    (rs : List (LitRes σ)) :
    setResults (l1 ++ nd :: l2) l1.length rs = l1 ++ ({ nd with branchResults := some rs }) :: l2 := by
  induction l1 with
  | nil => rfl
  | cons x xs ih => simp [setResults, ih]

theorem get?_middle (l1 : List (NodeData σ)) (nd : NodeData σ) (l2 : List (NodeData σ)) :
    (l1 ++ nd :: l2).get? l1.length = some nd := by
  induction l1 with
  | nil => rfl
  | cons x xs ih => simpa using ih

theorem resultsOf_middle (l1 : List (NodeData σ)) (nid : String) (par : Option Nat)
    (rs : Option (List (LitRes σ))) (l2 : List (NodeData σ)) :
    resultsOf ⟨l1 ++ ⟨nid, par, rs⟩ :: l2⟩ l1.length = rs.getD [] := by
  unfold resultsOf
  rw [get?_middle]

theorem jsRemaining_eq (input : String) (n : Nat) :
    (if n ≠ 0 then strDrop input n else input) = strDrop input n := by
  by_cases h : n = 0
  · rw [if_neg (by simp [h])]
    rw [h]
    rfl
  · rw [if_pos h]

theorem parseInternal_literal_eq (eng : RegexEngine) (input : String) (n : Nat)
    (idO : Option String) (re : ReSpec σ) (sug : SugSpec σ)
    (upd : σ → List (Option String) → σ) (prev : LitRes σ) (parentRef : Option Nat)
    (ord : Nat) (st : Store σ) :
    parseInternal eng input (n + 1) (.literal idO re sug upd) prev parentRef ord st =
      (let nodeId := computeNodeId st (.literal idO re sug upd) parentRef ord
      match eng (finalRegexpOf (resolveRegexp re prev.state)) (strDrop input prev.matchEnd) with
      | some (m, gs) =>
        .ok (st.nodes.length,
          ⟨st.nodes ++ [⟨nodeId, parentRef,
            some [LitRes.cons st.nodes.length prev (strLen m + prev.matchEnd) true []
              (upd prev.state gs)]⟩]⟩)
      | none =>
        .ok (st.nodes.length,
          ⟨st.nodes ++ [⟨nodeId, parentRef,
            some [LitRes.cons st.nodes.length prev prev.matchEnd false
              ((resolveSuggestions sug prev.state input).map suggestionAsObj) prev.state]⟩]⟩)) := by
  simp only [parseInternal, jsRemaining_eq, Store.finalize, setResults_append]

end LangParse

namespace LangParse


/-- C2 (amended): a literal evaluated against a prior result and an input
produces exactly one `LiteralResult`.  If the anchored pattern matches the
remaining input, it has `isMatch = true`, `matchEnd = prior.matchEnd +
length(matched text)` (an increase by exactly the matched length, which is
zero for a zero-length match), and `suggestions = []`; otherwise it has
`isMatch = false`, `matchEnd` equal to the prior's, resolved suggestions,
and state equal as a value to the prior state. -/
theorem C2_literal_behavior_amended (σ : Type) (eng : RegexEngine) (input : String)
    (n : Nat) (idO : Option String) (re : ReSpec σ) (sug : SugSpec σ)
    (upd : σ → List (Option String) → σ) (prev : LitRes σ) (parentRef : Option Nat)
    (ord : Nat) (st : Store σ) :
    (∀ m gs,
      eng (finalRegexpOf (resolveRegexp re prev.state)) (strDrop input prev.matchEnd)
          = some (m, gs) →
      parseInternal eng input (n + 1) (.literal idO re sug upd) prev parentRef ord st =
        .ok (st.nodes.length,
          ⟨st.nodes ++ [⟨computeNodeId st (.literal idO re sug upd) parentRef ord, parentRef,
            some [LitRes.cons st.nodes.length prev (strLen m + prev.matchEnd) true []
              (upd prev.state gs)]⟩]⟩)) ∧
    (eng (finalRegexpOf (resolveRegexp re prev.state)) (strDrop input prev.matchEnd) = none →
      parseInternal eng input (n + 1) (.literal idO re sug upd) prev parentRef ord st =
        .ok (st.nodes.length,
          ⟨st.nodes ++ [⟨computeNodeId st (.literal idO re sug upd) parentRef ord, parentRef,
            some [LitRes.cons st.nodes.length prev prev.matchEnd false
              ((resolveSuggestions sug prev.state input).map suggestionAsObj)
              prev.state]⟩]⟩)) := by
  constructor
  · intro m gs hmatch
    rw [parseInternal_literal_eq, hmatch]
  · intro hnone
    rw [parseInternal_literal_eq, hnone]

/-- Witness for C2 (amended): the literal `a` matches input `"ab"` and the
literal `z` does not; both runs produce the single stated result. -/
theorem C2_literal_behavior_amended_witness :
    (∃ p, parseInternal miniExec "ab" 1 cLitA rootLR none 0 (startStore ()) = .ok p ∧
      (resultsOf p.2 p.1).map (fun r => (r.isMatch, r.matchEnd, r.sugs)) = [(true, 1, [])]) ∧
    (∃ p, parseInternal miniExec "ab" 1 cLitZ rootLR none 0 (startStore ()) = .ok p ∧
      (resultsOf p.2 p.1).map (fun r => (r.isMatch, r.matchEnd, r.sugs))
        = [(false, 0, [bare "hint"])]) := by
  constructor
  · refine ⟨_, (C2_literal_behavior_amended Unit miniExec "ab" 0 none (.static ⟨"a", ""⟩)
      (.static [Suggestion.str "hint"]) (fun s _ => s) rootLR none 0 (startStore ())).1
      "a" [] (by decide), by decide⟩
  · refine ⟨_, (C2_literal_behavior_amended Unit miniExec "ab" 0 none (.static ⟨"z", ""⟩)
      (.static [Suggestion.str "hint"]) (fun s _ => s) rootLR none 0 (startStore ())).2
      (by decide), by decide⟩

/-- C2 (counterexample): the empty-matching literal `/(?:)/` on input
`"foobar"` yields `isMatch = true` with `matchEnd = 0`, equal to the prior
`matchEnd` — the claimed strict increase fails for zero-length matches. -/
theorem C2_claim_counterexample :
    ∃ p, (parseRun miniExec 1 (Expression.EMPTY_LITERAL (σ := Unit)) () "foobar").toOption
        = some p ∧
      (resultsOf p.2 p.1).map (fun r => (r.isMatch, r.matchEnd)) = [(true, 0)] ∧
      rootLR.matchEnd = 0 ∧
      ¬ (∀ r ∈ resultsOf p.2 p.1, r.isMatch = true → rootLR.matchEnd < r.matchEnd) := by
  refine ⟨((parseRun miniExec 1 (Expression.EMPTY_LITERAL (σ := Unit)) () "foobar").toOption).getD
    (0, ⟨[]⟩), ?_, ?_, rfl, ?_⟩
  · decide
  · decide
  · decide

end LangParse


namespace LangParse

theorem parseInternal_dynamic_eq (eng : RegexEngine) (input : String) (n : Nat)
    (idO : Option String) (fn : σ → (String → Bool) → Expr σ) (prev : LitRes σ)
    (parentRef : Option Nat) (ord : Nat) (st : Store σ) :
    parseInternal eng input (n + 1) (.dynamic idO fn) prev parentRef ord st =
      (let st1 : Store σ :=
        ⟨st.nodes ++ [⟨computeNodeId st (.dynamic idO fn) parentRef ord, parentRef, none⟩]⟩
      match parseInternal eng input n
          (fn prev.state (fun i => (getAllMatchedNodeIds st1 prev).contains i))
          prev (some st.nodes.length) 0 st1 with
      | .error err => .error err
      | .ok (cref, st2) => .ok (st.nodes.length, st2.finalize st.nodes.length (resultsOf st2 cref))) := by
  simp only [parseInternal]

theorem C7_conditional_notMatch (σ : Type) (eng : RegexEngine) (input : String) (n : Nat)
    (cond : σ → Bool) (ifTrue : Expr σ) (prev : LitRes σ) (parentRef : Option Nat)
    (ord : Nat) (st : Store σ)
    (hcond : cond prev.state = false)
    (heng : ∀ s : String, eng ⟨"^$", ""⟩ s = if s.data.isEmpty then some ("", []) else none) :
    ∃ st', parseInternal eng input (n + 2)
        (Expression.conditional cond ifTrue (some .notMatch)) prev parentRef ord st
        = .ok (st.nodes.length, st') ∧
      resultsOf st' st.nodes.length =
        [if (strDrop input prev.matchEnd).data.isEmpty then
          LitRes.cons (st.nodes.length + 1) prev prev.matchEnd true [] prev.state
        else
          LitRes.cons (st.nodes.length + 1) prev prev.matchEnd false [] prev.state] := by
  have hc : Expression.conditional cond ifTrue (some .notMatch)
      = Expr.dynamic none (fun s _ => if cond s = true then ifTrue
          else Expr.literal none (.static ⟨"$", ""⟩) (.static []) (fun x _ => x)) := rfl
  rw [hc, parseInternal_dynamic_eq]
  simp only [hcond, Bool.false_eq_true, if_false]
  rw [parseInternal_literal_eq]
  have hfr : finalRegexpOf (resolveRegexp (ReSpec.static (⟨"$", ""⟩ : RegexpData)) prev.state)
      = ⟨"^$", ""⟩ := rfl
  rw [hfr, heng (strDrop input prev.matchEnd)]
  by_cases hemp : (strDrop input prev.matchEnd).data.isEmpty = true
  · rw [if_pos hemp]
    simp only [Store.finalize]
    rw [show strLen "" + prev.matchEnd = prev.matchEnd from by simp [strLen]]
    refine ⟨_, rfl, ?_⟩
    rw [resultsOf_middle]
    rw [List.append_assoc, List.singleton_append, setResults_append, resultsOf_middle]
    simp [List.length_append, hemp]
  · rw [if_neg hemp]
    simp only [Store.finalize]
    refine ⟨_, rfl, ?_⟩
    rw [resultsOf_middle]
    rw [List.append_assoc, List.singleton_append, setResults_append, resultsOf_middle]
    simp [List.length_append, hemp, resolveSuggestions]

end LangParse

namespace LangParse

theorem miniExec_dollar (s : String) :
    miniExec ⟨"^$", ""⟩ s = if s.data.isEmpty then some ("", []) else none := by
  unfold miniExec
  rw [show ("^$" : String).data = ['^', '$'] from rfl]
  rfl

/-- Witness for C7 at the concrete grammar over `Unit` state: on input `"ab"`
(non-empty remainder) the result fails without consuming; on input `""` it
is a zero-length match. -/
theorem C7_conditional_notMatch_witness :
    (∃ st', parseInternal miniExec "ab" 2
        (Expression.conditional (fun (_ : Unit) => false) Expression.EMPTY_LITERAL
          (some .notMatch)) rootLR none 0 (startStore ()) = .ok (1, st') ∧
      resultsOf st' 1 = [LitRes.cons 2 rootLR 0 false [] ()]) ∧
    (∃ st', parseInternal miniExec "" 2
        (Expression.conditional (fun (_ : Unit) => false) Expression.EMPTY_LITERAL
          (some .notMatch)) rootLR none 0 (startStore ()) = .ok (1, st') ∧
      resultsOf st' 1 = [LitRes.cons 2 rootLR 0 true [] ()]) := by
  constructor
  · obtain ⟨st', h1, h2⟩ := C7_conditional_notMatch Unit miniExec "ab" 0 (fun _ => false)
      Expression.EMPTY_LITERAL rootLR none 0 (startStore ()) rfl miniExec_dollar
    exact ⟨st', h1, h2.trans (by decide)⟩
  · obtain ⟨st', h1, h2⟩ := C7_conditional_notMatch Unit miniExec "" 0 (fun _ => false)
      Expression.EMPTY_LITERAL rootLR none 0 (startStore ()) rfl miniExec_dollar
    exact ⟨st', h1, h2.trans (by decide)⟩

end LangParse

namespace LangParse

/-- C3 (code bug): in the current snapshot the upward climb of
`getAllMatchedNodeIds` is dead code — it starts at the matched literal's own
container, whose id was added to the set immediately before, so the
already-present check breaks the climb on its first iteration and no
ancestor id is ever added.  In the probe run the union `U` (node 2) is
finalized and matched when the dynamic node runs, yet the matched-id set of
the branch tip under node 3 is exactly `["L", "∅"]` (the containers of the
two matched literal results along the chain), so `wasAlreadyMatched("U")` is
`false` and the generator picks the `Y` branch: the final state is `"Y"` and
the parse consumes `"aY"`. -/
theorem C3_matched_ids_code_bug :
    (parse miniExec 6 c3expr "" "aY").toOption = some ⟨"aY", "", "Y", []⟩ ∧
    ((c3store.nodes.get? 2).map (fun nd => (nd.nodeId, nd.branchResults.isSome, nodeIsMatch nd)))
      = some ("U", true, true) ∧
    (resultsOf c3store 3).map (fun r => (r.isMatch, getAllMatchedNodeIds c3store r))
      = [(true, ["L", "∅"])] := by
  decide

end LangParse

namespace LangParse


theorem StoreExt.rfl (st : Store σ) : StoreExt st st := ⟨le_rfl, fun _ _ => Eq.refl _⟩

theorem StoreExt.trans {s1 s2 s3 : Store σ} (h1 : StoreExt s1 s2) (h2 : StoreExt s2 s3) :
    StoreExt s1 s3 :=
  ⟨le_trans h1.1 h2.1, fun i hi => (h2.2 i (lt_of_lt_of_le hi h1.1)).trans (h1.2 i hi)⟩

theorem StoreExt.append (st : Store σ) (nd : NodeData σ) :
    StoreExt st ⟨st.nodes ++ [nd]⟩ := by
  constructor
  · simp
  · intro i hi
    exact List.get?_append hi

theorem resultsOf_ext {st st' : Store σ} (h : StoreExt st st') {i : Nat}
    (hi : i < st.nodes.length) : resultsOf st' i = resultsOf st i := by
  unfold resultsOf
  rw [h.2 i hi]

theorem resultsOf_oob (st : Store σ) (i : Nat) (hi : st.nodes.length ≤ i) :
    resultsOf st i = [] := by
  unfold resultsOf
  rw [List.get?_eq_none.mpr hi]

theorem length_setResults (l : List (NodeData σ)) (i : Nat) (rs : List (LitRes σ)) :
    (setResults l i rs).length = l.length := by
  induction l generalizing i with
  | nil => rfl
  | cons nd rest ih =>
    cases i with
    | zero => rfl
    | succ k => simp [setResults, ih]

theorem get?_setResults (l : List (NodeData σ)) (i j : Nat) (rs : List (LitRes σ)) :
    (setResults l i rs).get? j =
      if j = i then (l.get? i).map (fun nd => { nd with branchResults := some rs })
      else l.get? j := by
  induction l generalizing i j with
  | nil => cases i <;> cases j <;> simp [setResults]
  | cons nd rest ih =>
    cases i with
    | zero =>
      cases j with
      | zero => simp [setResults]
      | succ m => simp [setResults]
    | succ k =>
      cases j with
      | zero => simp [setResults]
      | succ m =>
        simp only [setResults, List.get?]
        rw [ih k m]
        by_cases h : m = k
        · rw [if_pos h, if_pos (by omega)]
        · rw [if_neg h, if_neg (by omega)]

theorem resultsOf_finalize_self {st : Store σ} {ref : Nat} {nd : NodeData σ}
    (h : st.nodes.get? ref = some nd) (rs : List (LitRes σ)) :
    resultsOf (st.finalize ref rs) ref = rs := by
  unfold resultsOf Store.finalize
  rw [get?_setResults, if_pos (Eq.refl ref), h]
  rfl

theorem resultsOf_finalize_other (st : Store σ) (ref j : Nat) (hj : j ≠ ref)
    (rs : List (LitRes σ)) : resultsOf (st.finalize ref rs) j = resultsOf st j := by
  unfold resultsOf Store.finalize
  rw [get?_setResults, if_neg hj]

theorem StoreExt.finalize_fresh {st st' : Store σ} (h : StoreExt st st') (ref : Nat)
    (href : st.nodes.length ≤ ref) (rs : List (LitRes σ)) :
    StoreExt st (st'.finalize ref rs) := by
  constructor
  · unfold Store.finalize
    simp only [length_setResults]
    exact h.1
  · intro i hi
    unfold Store.finalize
    simp only [get?_setResults]
    rw [if_neg (by omega)]
    exact h.2 i hi

theorem strLen_strDrop (s : String) (n : Nat) : strLen (strDrop s n) = strLen s - n := by
  unfold strLen strDrop
  simp

end LangParse

namespace LangParse


theorem threadBranches_spec (W : Prop) (L : Nat)
    (f : LitRes σ → Store σ → Except EvalErr (Nat × Store σ))
    (hf : ∀ b s r s', f b s = .ok (r, s') → PISpec W L b s r s') :
    ∀ (bs : List (LitRes σ)) (st : Store σ) refs st',
      threadBranches f bs st = .ok (refs, st') →
      StoreExt st st' ∧
      (∀ cr ∈ refs, st.nodes.length ≤ cr ∧ cr < st'.nodes.length) ∧
      (∀ b ∈ bs, ∃ cr ∈ refs, resultsOf st' cr ≠ [] ∧
        ∀ r ∈ resultsOf st' cr, b.matchEnd ≤ r.matchEnd) ∧
      (∀ cr ∈ refs, resultsOf st' cr ≠ [] ∧
        ∃ b ∈ bs, ∀ r ∈ resultsOf st' cr, b.matchEnd ≤ r.matchEnd) ∧
      (∀ i r, st.nodes.length ≤ i → r ∈ resultsOf st' i →
        ∃ cr ∈ refs, ∃ r' ∈ resultsOf st' cr, r.matchEnd ≤ r'.matchEnd) ∧
      (W → (∀ b ∈ bs, b.matchEnd ≤ L) →
        ∀ i r, st.nodes.length ≤ i → r ∈ resultsOf st' i → r.matchEnd ≤ L) := by
  intro bs
  induction bs with
  | nil =>
    intro st refs st' h
    unfold threadBranches at h
    injection h with h1
    injection h1 with hrefs hst
    subst hrefs
    subst hst
    refine ⟨StoreExt.rfl st, by simp, by simp, by simp, ?_, ?_⟩
    · intro i r hi hr
      rw [resultsOf_oob st i hi] at hr
      simp at hr
    · intro _ _ i r hi hr
      rw [resultsOf_oob st i hi] at hr
      simp at hr
  | cons b bs ih =>
    intro st refs st' h
    unfold threadBranches at h
    cases h1 : f b st with
    | error e => rw [h1] at h; simp at h
    | ok p =>
      obtain ⟨r1, st1⟩ := p
      rw [h1] at h
      simp only [] at h
      cases h2 : threadBranches f bs st1 with
      | error e => rw [h2] at h; simp at h
      | ok q =>
        obtain ⟨rs, st2⟩ := q
        rw [h2] at h
        simp only [] at h
        injection h with h3
        injection h3 with hrefs hst
        subst hrefs
        subst hst
        obtain ⟨hr1len, hext1, hgrow1, hne1, hmono1, hbound1, hwf1⟩ := hf b st r1 st1 h1
        obtain ⟨hext2, hrange2, hfwd2, hback2, hbound2, hwf2⟩ := ih st1 rs st2 h2
        have hr1lt : r1 < st1.nodes.length := by omega
        have hres1 : resultsOf st2 r1 = resultsOf st1 r1 := resultsOf_ext hext2 hr1lt
        refine ⟨hext1.trans hext2, ?_, ?_, ?_, ?_, ?_⟩
        · intro cr hcr
          rcases List.mem_cons.mp hcr with hcr | hcr
          · subst hcr
            exact ⟨by omega, by have := hext2.1; omega⟩
          · have := hrange2 cr hcr
            constructor
            · have := hext1.1; omega
            · exact this.2
        · intro b' hb'
          rcases List.mem_cons.mp hb' with hb' | hb'
          · subst hb'
            refine ⟨r1, by simp, ?_, ?_⟩
            · rw [hres1]; exact hne1
            · rw [hres1]; exact hmono1
          · rcases hfwd2 b' hb' with ⟨cr, hcr, hne, hmono⟩
            exact ⟨cr, by simp [hcr], hne, hmono⟩
        · intro cr hcr
          rcases List.mem_cons.mp hcr with hcr | hcr
          · subst hcr
            rw [hres1]
            exact ⟨hne1, b, by simp, hmono1⟩
          · rcases hback2 cr hcr with ⟨hne, b', hb', hmono⟩
            exact ⟨hne, b', by simp [hb'], hmono⟩
        · intro i r hi hr
          by_cases hlt : i < st1.nodes.length
          · rw [resultsOf_ext hext2 hlt] at hr
            rcases hbound1 i r hi hr with ⟨r', hr', hle⟩
            exact ⟨r1, by simp, r', by rw [hres1]; exact hr', hle⟩
          · rcases hbound2 i r (by omega) hr with ⟨cr, hcr, r', hr', hle⟩
            exact ⟨cr, by simp [hcr], r', hr', hle⟩
        · intro hW hble i r hi hr
          by_cases hlt : i < st1.nodes.length
          · rw [resultsOf_ext hext2 hlt] at hr
            exact hwf1 hW (hble b (by simp)) i r hi hr
          · refine hwf2 hW ?_ i r (by omega) hr
            intro b' hb'
            exact hble b' (by simp [hb'])
end LangParse

namespace LangParse

theorem threadAlternates_spec (W : Prop) (L : Nat) (prev : LitRes σ)
    (f : Nat → Expr σ → Store σ → Except EvalErr (Nat × Store σ))
    (hf : ∀ i a s r s', f i a s = .ok (r, s') → PISpec W L prev s r s') :
    ∀ (i0 : Nat) (as : List (Expr σ)) (st : Store σ) refs st',
      threadAlternates f i0 as st = .ok (refs, st') →
      StoreExt st st' ∧
      (as ≠ [] → refs ≠ []) ∧
      (∀ cr ∈ refs, st.nodes.length ≤ cr ∧ cr < st'.nodes.length ∧
        resultsOf st' cr ≠ [] ∧ ∀ r ∈ resultsOf st' cr, prev.matchEnd ≤ r.matchEnd) ∧
      (∀ i r, st.nodes.length ≤ i → r ∈ resultsOf st' i →
        ∃ cr ∈ refs, ∃ r' ∈ resultsOf st' cr, r.matchEnd ≤ r'.matchEnd) ∧
      (W → prev.matchEnd ≤ L →
        ∀ i r, st.nodes.length ≤ i → r ∈ resultsOf st' i → r.matchEnd ≤ L) := by
  intro i0 as
  induction as generalizing i0 with
  | nil =>
    intro st refs st' h
    unfold threadAlternates at h
    injection h with h1
    injection h1 with hrefs hst
    subst hrefs
    subst hst
    refine ⟨StoreExt.rfl st, by simp, by simp, ?_, ?_⟩
    · intro i r hi hr
      rw [resultsOf_oob st i hi] at hr
      simp at hr
    · intro _ _ i r hi hr
      rw [resultsOf_oob st i hi] at hr
      simp at hr
  | cons a as ih =>
    intro st refs st' h
    unfold threadAlternates at h
    cases h1 : f i0 a st with
    | error e => rw [h1] at h; simp at h
    | ok p =>
      obtain ⟨r1, st1⟩ := p
      rw [h1] at h
      simp only [] at h
      cases h2 : threadAlternates f (i0 + 1) as st1 with
      | error e => rw [h2] at h; simp at h
      | ok q =>
        obtain ⟨rs, st2⟩ := q
        rw [h2] at h
        simp only [] at h
        injection h with h3
        injection h3 with hrefs hst
        subst hrefs
        subst hst
        obtain ⟨hr1len, hext1, hgrow1, hne1, hmono1, hbound1, hwf1⟩ := hf i0 a st r1 st1 h1
        obtain ⟨hext2, _, hprops2, hbound2, hwf2⟩ := ih (i0 + 1) st1 rs st2 h2
        have hr1lt : r1 < st1.nodes.length := by omega
        have hres1 : resultsOf st2 r1 = resultsOf st1 r1 := resultsOf_ext hext2 hr1lt
        refine ⟨hext1.trans hext2, by simp, ?_, ?_, ?_⟩
        · intro cr hcr
          rcases List.mem_cons.mp hcr with hcr | hcr
          · subst hcr
            refine ⟨by omega, by have := hext2.1; omega, ?_, ?_⟩
            · rw [hres1]; exact hne1
            · rw [hres1]; exact hmono1
          · rcases hprops2 cr hcr with ⟨hge, hlt, hne, hmono⟩
            exact ⟨by have := hext1.1; omega, hlt, hne, hmono⟩
        · intro i r hi hr
          by_cases hlt : i < st1.nodes.length
          · rw [resultsOf_ext hext2 hlt] at hr
            rcases hbound1 i r hi hr with ⟨r', hr', hle⟩
            exact ⟨r1, by simp, r', by rw [hres1]; exact hr', hle⟩
          · rcases hbound2 i r (by omega) hr with ⟨cr, hcr, r', hr', hle⟩
            exact ⟨cr, by simp [hcr], r', hr', hle⟩
        · intro hW hple i r hi hr
          by_cases hlt : i < st1.nodes.length
          · rw [resultsOf_ext hext2 hlt] at hr
            exact hwf1 hW hple i r hi hr
          · exact hwf2 hW hple i r (by omega) hr

end LangParse

namespace LangParse

theorem seqFold_spec (W : Prop) (L : Nat)
    (ev : Expr σ → Nat → LitRes σ → Store σ → Except EvalErr (Nat × Store σ))
    (hev : ∀ c i b s r s', ev c i b s = .ok (r, s') → PISpec W L b s r s') :
    ∀ (cs : List (Expr σ)) (i : Nat) (live dead : List (LitRes σ)) (st : Store σ) res st',
      seqFold ev cs i live dead st = .ok (res, st') →
      StoreExt st st' ∧
      (live ≠ [] ∨ dead ≠ [] → res ≠ []) ∧
      (∀ b ∈ live, ∃ r' ∈ res, b.matchEnd ≤ r'.matchEnd) ∧
      (∀ d ∈ dead, d ∈ res) ∧
      (∀ j r, st.nodes.length ≤ j → r ∈ resultsOf st' j →
        ∃ r' ∈ res, r.matchEnd ≤ r'.matchEnd) ∧
      (∀ r ∈ res, r ∈ dead ∨ ∃ b ∈ live, b.matchEnd ≤ r.matchEnd) ∧
      (W → (∀ b ∈ live, b.matchEnd ≤ L) →
        ∀ j r, st.nodes.length ≤ j → r ∈ resultsOf st' j → r.matchEnd ≤ L) := by
  intro cs
  induction cs with
  | nil =>
    intro i live dead st res st' h
    unfold seqFold at h
    injection h with h1
    injection h1 with hres hst
    subst hres
    subst hst
    refine ⟨StoreExt.rfl st, ?_, ?_, ?_, ?_, ?_, ?_⟩
    · intro hor hc
      rcases List.append_eq_nil.mp hc with ⟨h1, h2⟩
      rcases hor with h | h
      · exact h h1
      · exact h h2
    · intro b hb
      exact ⟨b, List.mem_append_left _ hb, le_rfl⟩
    · intro d hd
      exact List.mem_append_right _ hd
    · intro j r hj hr
      rw [resultsOf_oob st j hj] at hr
      simp at hr
    · intro r hr
      rcases List.mem_append.mp hr with h | h
      · exact Or.inr ⟨r, h, le_rfl⟩
      · exact Or.inl h
    · intro _ _ j r hj hr
      rw [resultsOf_oob st j hj] at hr
      simp at hr
  | cons c cs ih =>
    intro i live dead st res st' h
    unfold seqFold at h
    cases h1 : threadBranches (fun br s => ev c i br s) live st with
    | error e => rw [h1] at h; simp at h
    | ok p =>
      obtain ⟨refs, st1⟩ := p
      rw [h1] at h
      simp only [] at h
      obtain ⟨tbExt, tbRange, tbFwd, tbBack, tbBound, tbWf⟩ :=
        threadBranches_spec W L (fun br s => ev c i br s)
          (fun b s r s' hb => hev c i b s r s' hb) live st refs st1 h1
      have hmemL : ∀ x : LitRes σ,
          x ∈ refs.flatMap (fun r => (resultsOf st1 r).filter (fun y => y.isMatch)) ↔
          ∃ cr ∈ refs, x ∈ resultsOf st1 cr ∧ x.isMatch = true := by
        intro x
        simp [List.mem_flatMap, List.mem_filter]
      have hmemD : ∀ x : LitRes σ,
          x ∈ refs.flatMap (fun r => (resultsOf st1 r).filter (fun y => !y.isMatch)) ↔
          ∃ cr ∈ refs, x ∈ resultsOf st1 cr ∧ x.isMatch = false := by
        intro x
        simp [List.mem_flatMap, List.mem_filter]
      cases h2 : (refs.flatMap (fun r => (resultsOf st1 r).filter (fun y => y.isMatch))).isEmpty with
      | true =>
        rw [h2] at h
        simp only [if_true] at h
        injection h with h3
        injection h3 with hres hst
        subst hres
        subst hst
        have hLnil : refs.flatMap (fun r => (resultsOf st1 r).filter (fun y => y.isMatch)) = [] :=
          List.isEmpty_iff.mp h2
        rw [hLnil]
        have hnomatch : ∀ cr ∈ refs, ∀ r ∈ resultsOf st1 cr, r.isMatch = false := by
          intro cr hcr r hr
          by_contra hc
          have : r ∈ ([] : List (LitRes σ)) := by
            rw [← hLnil]
            exact (hmemL r).mpr ⟨cr, hcr, hr, by simpa using hc⟩
          simp at this
        have hdeadmem : ∀ cr ∈ refs, ∀ r ∈ resultsOf st1 cr,
            r ∈ dead ++ refs.flatMap (fun r => (resultsOf st1 r).filter (fun y => !y.isMatch)) := by
          intro cr hcr r hr
          refine List.mem_append_right _ ?_
          exact (hmemD r).mpr ⟨cr, hcr, hr, hnomatch cr hcr r hr⟩
        refine ⟨tbExt, ?_, ?_, ?_, ?_, ?_, ?_⟩
        · intro hor
          rcases hor with hlive | hdead
          · rcases List.exists_mem_of_ne_nil live hlive with ⟨b, hb⟩
            rcases tbFwd b hb with ⟨cr, hcr, hne, _⟩
            rcases List.exists_mem_of_ne_nil _ hne with ⟨r0, hr0⟩
            intro hc
            rw [List.nil_append] at hc
            rw [hc] at hdeadmem
            exact absurd (hdeadmem cr hcr r0 hr0) (by simp)
          · intro hc
            rw [List.nil_append] at hc
            rcases List.append_eq_nil.mp hc with ⟨hd, _⟩
            exact hdead hd
        · intro b hb
          rcases tbFwd b hb with ⟨cr, hcr, hne, hmono⟩
          rcases List.exists_mem_of_ne_nil _ hne with ⟨r0, hr0⟩
          exact ⟨r0, List.mem_append_right _ (hdeadmem cr hcr r0 hr0), hmono r0 hr0⟩
        · intro d hd
          exact List.mem_append_right _ (List.mem_append_left _ hd)
        · intro j r hj hr
          rcases tbBound j r hj hr with ⟨cr, hcr, r', hr', hle⟩
          exact ⟨r', List.mem_append_right _ (hdeadmem cr hcr r' hr'), hle⟩
        · intro r hr
          rw [List.nil_append] at hr
          rcases List.mem_append.mp hr with hr | hr
          · exact Or.inl hr
          · rcases (hmemD r).mp hr with ⟨cr, hcr, hrmem, _⟩
            rcases tbBack cr hcr with ⟨_, b, hb, hmono⟩
            exact Or.inr ⟨b, hb, hmono r hrmem⟩
        · intro hW hble j r hj hr
          exact tbWf hW hble j r hj hr
      | false =>
        rw [h2] at h
        simp only [Bool.false_eq_true, if_false] at h
        obtain ⟨ihExt, ihNe, ihLive, ihDead, ihBound, ihOrigin, ihWf⟩ :=
          ih (i + 1) _ _ st1 res st' h
        have hLne : refs.flatMap (fun r => (resultsOf st1 r).filter (fun y => y.isMatch)) ≠ [] := by
          intro hc
          rw [hc] at h2
          simp at h2
        refine ⟨tbExt.trans ihExt, ?_, ?_, ?_, ?_, ?_, ?_⟩
        · intro _
          exact ihNe (Or.inl hLne)
        · intro b hb
          rcases tbFwd b hb with ⟨cr, hcr, hne, hmono⟩
          rcases List.exists_mem_of_ne_nil _ hne with ⟨r0, hr0⟩
          cases hm : r0.isMatch with
          | true =>
            rcases ihLive r0 ((hmemL r0).mpr ⟨cr, hcr, hr0, hm⟩) with ⟨r', hr', hle⟩
            exact ⟨r', hr', le_trans (hmono r0 hr0) hle⟩
          | false =>
            refine ⟨r0, ?_, hmono r0 hr0⟩
            exact ihDead r0 (List.mem_append_right _ ((hmemD r0).mpr ⟨cr, hcr, hr0, hm⟩))
        · intro d hd
          exact ihDead d (List.mem_append_left _ hd)
        · intro j r hj hr
          by_cases hlt : j < st1.nodes.length
          · rw [resultsOf_ext ihExt hlt] at hr
            rcases tbBound j r hj hr with ⟨cr, hcr, r', hr', hle⟩
            cases hm : r'.isMatch with
            | true =>
              rcases ihLive r' ((hmemL r').mpr ⟨cr, hcr, hr', hm⟩) with ⟨r'', hr'', hle2⟩
              exact ⟨r'', hr'', le_trans hle hle2⟩
            | false =>
              exact ⟨r', ihDead r' (List.mem_append_right _ ((hmemD r').mpr ⟨cr, hcr, hr', hm⟩)), hle⟩
          · exact ihBound j r (by omega) hr
        · intro r hr
          rcases ihOrigin r hr with hr1 | ⟨b', hb', hle⟩
          · rcases List.mem_append.mp hr1 with hd | hd
            · exact Or.inl hd
            · rcases (hmemD r).mp hd with ⟨cr, hcr, hrmem, _⟩
              rcases tbBack cr hcr with ⟨_, b, hb, hmono⟩
              exact Or.inr ⟨b, hb, hmono r hrmem⟩
          · rcases (hmemL b').mp hb' with ⟨cr, hcr, hbmem, _⟩
            rcases tbBack cr hcr with ⟨_, b, hb, hmono⟩
            exact Or.inr ⟨b, hb, le_trans (hmono b' hbmem) hle⟩
        · intro hW hble j r hj hr
          by_cases hlt : j < st1.nodes.length
          · rw [resultsOf_ext ihExt hlt] at hr
            exact tbWf hW hble j r hj hr
          · refine ihWf hW ?_ j r (by omega) hr
            intro b' hb'
            rcases (hmemL b').mp hb' with ⟨cr, hcr, hbmem, _⟩
            have hge : st.nodes.length ≤ cr := (tbRange cr hcr).1
            exact tbWf hW hble cr b' hge hbmem

end LangParse

namespace LangParse

theorem seqFold_mem_src (W : Prop) (L : Nat)
    (ev : Expr σ → Nat → LitRes σ → Store σ → Except EvalErr (Nat × Store σ))
    (hev : ∀ c i b s r s', ev c i b s = .ok (r, s') → PISpec W L b s r s') :
    ∀ (cs : List (Expr σ)) (i : Nat) (live dead : List (LitRes σ)) (st : Store σ) res st',
      seqFold ev cs i live dead st = .ok (res, st') →
      ∀ r ∈ res, r ∈ live ∨ r ∈ dead ∨
        ∃ j, st.nodes.length ≤ j ∧ j < st'.nodes.length ∧ r ∈ resultsOf st' j := by
  intro cs
  induction cs with
  | nil =>
    intro i live dead st res st' h r hr
    unfold seqFold at h
    injection h with h1
    injection h1 with hres hst
    subst hres
    rcases List.mem_append.mp hr with h | h
    · exact Or.inl h
    · exact Or.inr (Or.inl h)
  | cons c cs ih =>
    intro i live dead st res st' h r hr
    unfold seqFold at h
    cases h1 : threadBranches (fun br s => ev c i br s) live st with
    | error e => rw [h1] at h; simp at h
    | ok p =>
      obtain ⟨refs, st1⟩ := p
      rw [h1] at h
      simp only [] at h
      obtain ⟨tbExt, tbRange, _, _, _, _⟩ :=
        threadBranches_spec W L (fun br s => ev c i br s)
          (fun b s r s' hb => hev c i b s r s' hb) live st refs st1 h1
      have hmemD : ∀ x : LitRes σ,
          x ∈ refs.flatMap (fun r => (resultsOf st1 r).filter (fun y => !y.isMatch)) →
          ∃ cr ∈ refs, x ∈ resultsOf st1 cr := by
        intro x hx
        rcases List.mem_flatMap.mp hx with ⟨cr, hcr, hxm⟩
        exact ⟨cr, hcr, (List.mem_filter.mp hxm).1⟩
      have hmemL : ∀ x : LitRes σ,
          x ∈ refs.flatMap (fun r => (resultsOf st1 r).filter (fun y => y.isMatch)) →
          ∃ cr ∈ refs, x ∈ resultsOf st1 cr := by
        intro x hx
        rcases List.mem_flatMap.mp hx with ⟨cr, hcr, hxm⟩
        exact ⟨cr, hcr, (List.mem_filter.mp hxm).1⟩
      cases h2 : (refs.flatMap (fun r => (resultsOf st1 r).filter (fun y => y.isMatch))).isEmpty with
      | true =>
        rw [h2] at h
        simp only [if_true] at h
        injection h with h3
        injection h3 with hres hst
        subst hres
        subst hst
        rw [List.isEmpty_iff.mp h2, List.nil_append] at hr
        rcases List.mem_append.mp hr with hd | hd
        · exact Or.inr (Or.inl hd)
        · rcases hmemD r hd with ⟨cr, hcr, hrmem⟩
          exact Or.inr (Or.inr ⟨cr, (tbRange cr hcr).1, (tbRange cr hcr).2, hrmem⟩)
      | false =>
        rw [h2] at h
        simp only [Bool.false_eq_true, if_false] at h
        have ihExt : StoreExt st1 st' := by
          obtain ⟨e1, _, _, _, _, _, _⟩ :=
            seqFold_spec W L ev hev cs (i + 1) _ _ st1 res st' h
          exact e1
        rcases ih (i + 1) _ _ st1 res st' h r hr with hL | hD | ⟨j, hj1, hj2, hj3⟩
        · rcases hmemL r hL with ⟨cr, hcr, hrmem⟩
          refine Or.inr (Or.inr ⟨cr, (tbRange cr hcr).1, ?_, ?_⟩)
          · have := (tbRange cr hcr).2
            have := ihExt.1
            omega
          · rw [resultsOf_ext ihExt (tbRange cr hcr).2]
            exact hrmem
        · rcases List.mem_append.mp hD with hd | hd
          · exact Or.inr (Or.inl hd)
          · rcases hmemD r hd with ⟨cr, hcr, hrmem⟩
            refine Or.inr (Or.inr ⟨cr, (tbRange cr hcr).1, ?_, ?_⟩)
            · have := (tbRange cr hcr).2
              have := ihExt.1
              omega
            · rw [resultsOf_ext ihExt (tbRange cr hcr).2]
              exact hrmem
        · refine Or.inr (Or.inr ⟨j, ?_, hj2, hj3⟩)
          have := tbExt.1
          omega

theorem parseInternal_sequence_eq (eng : RegexEngine) (input : String) (n : Nat)
    (idO : Option String) (children : List (Expr σ)) (prev : LitRes σ)
    (parentRef : Option Nat) (ord : Nat) (st : Store σ) :
    parseInternal eng input (n + 1) (.sequence idO children) prev parentRef ord st =
      (match children with
      | [] => .error (.configError "Sequence expression must have at least one child")
      | _ :: _ =>
        match seqFold (fun c i br s => parseInternal eng input n c br (some st.nodes.length) i s)
            children 0 [prev] []
            ⟨st.nodes ++ [⟨computeNodeId st (.sequence idO children) parentRef ord,
              parentRef, none⟩]⟩ with
        | .error err => .error err
        | .ok (results, st2) => .ok (st.nodes.length, st2.finalize st.nodes.length results)) := by
  cases children with
  | nil => simp only [parseInternal]
  | cons c cs => simp only [parseInternal]

theorem parseInternal_union_eq (eng : RegexEngine) (input : String) (n : Nat)
    (idO : Option String) (alternates : List (Expr σ)) (prev : LitRes σ)
    (parentRef : Option Nat) (ord : Nat) (st : Store σ) :
    parseInternal eng input (n + 1) (.union idO alternates) prev parentRef ord st =
      (match alternates with
      | [] => .error (.configError "Union expression must have at least one child")
      | _ :: _ =>
        match threadAlternates
            (fun i alt s => parseInternal eng input n alt prev (some st.nodes.length) i s)
            0 alternates
            ⟨st.nodes ++ [⟨computeNodeId st (.union idO alternates) parentRef ord,
              parentRef, none⟩]⟩ with
        | .error err => .error err
        | .ok (refs, st2) =>
          .ok (st.nodes.length,
            st2.finalize st.nodes.length (refs.flatMap (fun cr => resultsOf st2 cr)))) := by
  cases alternates with
  | nil => simp only [parseInternal]
  | cons a as => simp only [parseInternal]

end LangParse

namespace LangParse

theorem parseInternal_spec (eng : RegexEngine) (input : String) :
    ∀ (fuel : Nat) (e : Expr σ) (prev : LitRes σ) (parentRef : Option Nat) (ord : Nat)
      (st : Store σ) (ref : Nat) (st' : Store σ),
      parseInternal eng input fuel e prev parentRef ord st = .ok (ref, st') →
      PISpec (wfEngine eng) (strLen input) prev st ref st' := by
  intro fuel
  induction fuel with
  | zero =>
    intro e prev parentRef ord st ref st' h
    simp [parseInternal] at h
  | succ n ihn =>
    intro e prev parentRef ord st ref st' h
    cases e with
    | literal idO re sug upd =>
      rw [parseInternal_literal_eq] at h
      cases hm : eng (finalRegexpOf (resolveRegexp re prev.state)) (strDrop input prev.matchEnd) with
      | some p =>
        obtain ⟨m, gs⟩ := p
        rw [hm] at h
        simp only [] at h
        injection h with h1
        injection h1 with href hst
        subst href
        subst hst
        refine ⟨rfl, StoreExt.append st _, by simp, ?_, ?_, ?_, ?_⟩
        · rw [resultsOf_middle]
          simp
        · rw [resultsOf_middle]
          intro r hr
          simp only [Option.getD_some, List.mem_singleton] at hr
          subst hr
          show prev.matchEnd ≤ strLen m + prev.matchEnd
          omega
        · intro i r hi hr
          rcases Nat.eq_or_lt_of_le hi with hieq | higt
          · refine ⟨r, ?_, le_rfl⟩
            rw [← hieq] at hr
            exact hr
          · rw [resultsOf_oob _ i (by simp; omega)] at hr
            simp at hr
        · intro hW hple i r hi hr
          rcases Nat.eq_or_lt_of_le hi with hieq | higt
          · rw [← hieq, resultsOf_middle] at hr
            simp only [Option.getD_some, List.mem_singleton] at hr
            subst hr
            show strLen m + prev.matchEnd ≤ strLen input
            have := hW _ _ _ _ hm
            rw [strLen_strDrop] at this
            omega
          · rw [resultsOf_oob _ i (by simp; omega)] at hr
            simp at hr
      | none =>
        rw [hm] at h
        simp only [] at h
        injection h with h1
        injection h1 with href hst
        subst href
        subst hst
        refine ⟨rfl, StoreExt.append st _, by simp, ?_, ?_, ?_, ?_⟩
        · rw [resultsOf_middle]
          simp
        · rw [resultsOf_middle]
          intro r hr
          simp only [Option.getD_some, List.mem_singleton] at hr
          subst hr
          show prev.matchEnd ≤ prev.matchEnd
          exact le_rfl
        · intro i r hi hr
          rcases Nat.eq_or_lt_of_le hi with hieq | higt
          · refine ⟨r, ?_, le_rfl⟩
            rw [← hieq] at hr
            exact hr
          · rw [resultsOf_oob _ i (by simp; omega)] at hr
            simp at hr
        · intro hW hple i r hi hr
          rcases Nat.eq_or_lt_of_le hi with hieq | higt
          · rw [← hieq, resultsOf_middle] at hr
            simp only [Option.getD_some, List.mem_singleton] at hr
            subst hr
            exact hple
          · rw [resultsOf_oob _ i (by simp; omega)] at hr
            simp at hr
    | sequence idO children =>
      rw [parseInternal_sequence_eq] at h
      cases children with
      | nil => simp at h
      | cons c cs =>
        simp only [] at h
        generalize hnd : (⟨computeNodeId st (Expr.sequence idO (c :: cs)) parentRef ord,
          parentRef, none⟩ : NodeData σ) = nd at h
        cases hsf : seqFold
            (fun c' i br s => parseInternal eng input n c' br (some st.nodes.length) i s)
            (c :: cs) 0 [prev] [] ⟨st.nodes ++ [nd]⟩ with
        | error e => rw [hsf] at h; simp at h
        | ok p =>
          obtain ⟨results, st2⟩ := p
          rw [hsf] at h
          simp only [] at h
          injection h with h1
          injection h1 with href hst
          subst href
          subst hst
          obtain ⟨sfExt, sfNe, sfLive, sfDead, sfBound, sfOrigin, sfWf⟩ :=
            seqFold_spec (wfEngine eng) (strLen input) _
              (fun c' i b s r s' hh => ihn c' b (some st.nodes.length) i s r s' hh)
              (c :: cs) 0 [prev] [] ⟨st.nodes ++ [nd]⟩ results st2 hsf
          have hsrc := seqFold_mem_src (wfEngine eng) (strLen input) _
              (fun c' i b s r s' hh => ihn c' b (some st.nodes.length) i s r s' hh)
              (c :: cs) 0 [prev] [] ⟨st.nodes ++ [nd]⟩ results st2 hsf
          have hlen1 : (⟨st.nodes ++ [nd]⟩ : Store σ).nodes.length = st.nodes.length + 1 := by
            simp
          have hget2 : st2.nodes.get? st.nodes.length = some nd := by
            rw [sfExt.2 st.nodes.length (by omega)]
            exact get?_middle st.nodes nd []
          have hresref : resultsOf (st2.finalize st.nodes.length results) st.nodes.length
              = results := resultsOf_finalize_self hget2 results
          refine ⟨rfl, ?_, ?_, ?_, ?_, ?_, ?_⟩
          · exact StoreExt.finalize_fresh ((StoreExt.append st nd).trans sfExt)
              st.nodes.length le_rfl results
          · have := sfExt.1
            unfold Store.finalize
            simp only [length_setResults]
            omega
          · rw [hresref]
            exact sfNe (Or.inl (by simp))
          · rw [hresref]
            intro r hr
            rcases sfOrigin r hr with hd | ⟨b, hb, hle⟩
            · simp at hd
            · simp only [List.mem_singleton] at hb
              subst hb
              exact hle
          · intro i r hi hr
            by_cases hieq : i = st.nodes.length
            · subst hieq
              rw [hresref] at hr
              exact ⟨r, by rw [hresref]; exact hr, le_rfl⟩
            · rw [resultsOf_finalize_other st2 _ i hieq] at hr
              rcases sfBound i r (by omega) hr with ⟨r', hr', hle⟩
              exact ⟨r', by rw [hresref]; exact hr', hle⟩
          · intro hW hple i r hi hr
            have hlb : ∀ b ∈ [prev], LitRes.matchEnd b ≤ strLen input := by
              intro b hb
              simp only [List.mem_singleton] at hb
              subst hb
              exact hple
            by_cases hieq : i = st.nodes.length
            · subst hieq
              rw [hresref] at hr
              rcases hsrc r hr with hl | hd | ⟨j, hj1, hj2, hj3⟩
              · simp only [List.mem_singleton] at hl
                subst hl
                exact hple
              · simp at hd
              · exact sfWf hW hlb j r hj1 hj3
            · rw [resultsOf_finalize_other st2 _ i hieq] at hr
              exact sfWf hW hlb i r (by omega) hr
    | union idO alternates =>
      rw [parseInternal_union_eq] at h
      cases alternates with
      | nil => simp at h
      | cons a as =>
        simp only [] at h
        generalize hnd : (⟨computeNodeId st (Expr.union idO (a :: as)) parentRef ord,
          parentRef, none⟩ : NodeData σ) = nd at h
        cases hta : threadAlternates
            (fun i alt s => parseInternal eng input n alt prev (some st.nodes.length) i s)
            0 (a :: as) ⟨st.nodes ++ [nd]⟩ with
        | error e => rw [hta] at h; simp at h
        | ok p =>
          obtain ⟨refs, st2⟩ := p
          rw [hta] at h
          simp only [] at h
          injection h with h1
          injection h1 with href hst
          subst href
          subst hst
          obtain ⟨taExt, taNe, taProps, taBound, taWf⟩ :=
            threadAlternates_spec (wfEngine eng) (strLen input) prev _
              (fun i a' s r s' hh => ihn a' prev (some st.nodes.length) i s r s' hh)
              0 (a :: as) ⟨st.nodes ++ [nd]⟩ refs st2 hta
          have hlen1 : (⟨st.nodes ++ [nd]⟩ : Store σ).nodes.length = st.nodes.length + 1 := by
            simp
          have hget2 : st2.nodes.get? st.nodes.length = some nd := by
            rw [taExt.2 st.nodes.length (by omega)]
            exact get?_middle st.nodes nd []
          have hresref : resultsOf
              (st2.finalize st.nodes.length (refs.flatMap (fun cr => resultsOf st2 cr)))
              st.nodes.length = refs.flatMap (fun cr => resultsOf st2 cr) :=
            resultsOf_finalize_self hget2 _
          refine ⟨rfl, ?_, ?_, ?_, ?_, ?_, ?_⟩
          · exact StoreExt.finalize_fresh ((StoreExt.append st nd).trans taExt)
              st.nodes.length le_rfl _
          · have := taExt.1
            unfold Store.finalize
            simp only [length_setResults]
            omega
          · rw [hresref]
            rcases List.exists_mem_of_ne_nil refs (taNe (by simp)) with ⟨cr, hcr⟩
            rcases List.exists_mem_of_ne_nil _ (taProps cr hcr).2.2.1 with ⟨r0, hr0⟩
            intro hc
            rw [List.eq_nil_iff_forall_not_mem] at hc
            exact hc r0 (List.mem_flatMap.mpr ⟨cr, hcr, hr0⟩)
          · rw [hresref]
            intro r hr
            rcases List.mem_flatMap.mp hr with ⟨cr, hcr, hrmem⟩
            exact (taProps cr hcr).2.2.2 r hrmem
          · intro i r hi hr
            by_cases hieq : i = st.nodes.length
            · subst hieq
              rw [hresref] at hr
              exact ⟨r, by rw [hresref]; exact hr, le_rfl⟩
            · rw [resultsOf_finalize_other st2 _ i hieq] at hr
              rcases taBound i r (by omega) hr with ⟨cr, hcr, r', hr', hle⟩
              refine ⟨r', ?_, hle⟩
              rw [hresref]
              exact List.mem_flatMap.mpr ⟨cr, hcr, hr'⟩
          · intro hW hple i r hi hr
            by_cases hieq : i = st.nodes.length
            · subst hieq
              rw [hresref] at hr
              rcases List.mem_flatMap.mp hr with ⟨cr, hcr, hrmem⟩
              exact taWf hW hple cr r (taProps cr hcr).1 hrmem
            · rw [resultsOf_finalize_other st2 _ i hieq] at hr
              exact taWf hW hple i r (by omega) hr
    | dynamic idO fn =>
      rw [parseInternal_dynamic_eq] at h
      simp only [] at h
      generalize hnd : (⟨computeNodeId st (Expr.dynamic idO fn) parentRef ord,
        parentRef, none⟩ : NodeData σ) = nd at h
      cases hch : parseInternal eng input n
          (fn prev.state (fun i =>
            (getAllMatchedNodeIds ⟨st.nodes ++ [nd]⟩ prev).contains i))
          prev (some st.nodes.length) 0 ⟨st.nodes ++ [nd]⟩ with
      | error e => rw [hch] at h; simp at h
      | ok p =>
        obtain ⟨cref, st2⟩ := p
        rw [hch] at h
        simp only [] at h
        injection h with h1
        injection h1 with href hst
        subst href
        subst hst
        obtain ⟨chref, chExt, chGrow, chNe, chMono, chBound, chWf⟩ :=
          ihn _ prev (some st.nodes.length) 0 ⟨st.nodes ++ [nd]⟩ cref st2 hch
        have hlen1 : (⟨st.nodes ++ [nd]⟩ : Store σ).nodes.length = st.nodes.length + 1 := by
          simp
        have hget2 : st2.nodes.get? st.nodes.length = some nd := by
          rw [chExt.2 st.nodes.length (by omega)]
          exact get?_middle st.nodes nd []
        have hresref : resultsOf (st2.finalize st.nodes.length (resultsOf st2 cref))
            st.nodes.length = resultsOf st2 cref := resultsOf_finalize_self hget2 _
        refine ⟨rfl, ?_, ?_, ?_, ?_, ?_, ?_⟩
        · exact StoreExt.finalize_fresh ((StoreExt.append st nd).trans chExt)
            st.nodes.length le_rfl _
        · have := chExt.1
          unfold Store.finalize
          simp only [length_setResults]
          omega
        · rw [hresref]
          exact chNe
        · rw [hresref]
          exact chMono
        · intro i r hi hr
          by_cases hieq : i = st.nodes.length
          · subst hieq
            rw [hresref] at hr
            exact ⟨r, by rw [hresref]; exact hr, le_rfl⟩
          · rw [resultsOf_finalize_other st2 _ i hieq] at hr
            rcases chBound i r (by omega) hr with ⟨r', hr', hle⟩
            exact ⟨r', by rw [hresref]; exact hr', hle⟩
        · intro hW hple i r hi hr
          by_cases hieq : i = st.nodes.length
          · subst hieq
            rw [hresref] at hr
            exact chWf hW hple cref r (by omega) hr
          · rw [resultsOf_finalize_other st2 _ i hieq] at hr
            exact chWf hW hple i r (by omega) hr

end LangParse

namespace LangParse

theorem foldl_max_ge_init (rs : List (LitRes σ)) :
    ∀ acc : Nat, acc ≤ rs.foldl (fun g r => Nat.max g r.matchEnd) acc := by
  induction rs with
  | nil => intro acc; exact le_rfl
  | cons r t ih =>
    intro acc
    exact le_trans (Nat.le_max_left acc r.matchEnd) (ih (Nat.max acc r.matchEnd))

theorem foldl_max_ge_mem (rs : List (LitRes σ)) :
    ∀ acc : Nat, ∀ r ∈ rs, r.matchEnd ≤ rs.foldl (fun g r => Nat.max g r.matchEnd) acc := by
  induction rs with
  | nil => intro acc r hr; simp at hr
  | cons x t ih =>
    intro acc r hr
    rcases List.mem_cons.mp hr with hr | hr
    · subst hr
      exact le_trans (Nat.le_max_right acc r.matchEnd) (foldl_max_ge_init t _)
    · exact ih (Nat.max acc x.matchEnd) r hr

theorem greatestMatchEnd_ge (rs : List (LitRes σ)) (r : LitRes σ) (hr : r ∈ rs) :
    r.matchEnd ≤ greatestMatchEnd rs :=
  foldl_max_ge_mem rs 0 r hr

theorem foldl_max_attained (rs : List (LitRes σ)) :
    ∀ acc : Nat, rs.foldl (fun g r => Nat.max g r.matchEnd) acc = acc ∨
      ∃ r ∈ rs, rs.foldl (fun g r => Nat.max g r.matchEnd) acc = r.matchEnd := by
  induction rs with
  | nil => intro acc; exact Or.inl rfl
  | cons x t ih =>
    intro acc
    rcases ih (Nat.max acc x.matchEnd) with h | ⟨r, hr, hre⟩
    · rw [List.foldl_cons, h]
      by_cases hc : x.matchEnd ≤ acc
      · exact Or.inl (Nat.max_eq_left hc)
      · refine Or.inr ⟨x, by simp, ?_⟩
        exact Nat.max_eq_right (by omega)
    · exact Or.inr ⟨r, by simp [hr], by rw [List.foldl_cons]; exact hre⟩

theorem exists_greatest (rs : List (LitRes σ)) (hne : rs ≠ []) :
    ∃ r ∈ rs, r.matchEnd = greatestMatchEnd rs := by
  unfold greatestMatchEnd
  rcases foldl_max_attained rs 0 with h | ⟨r, hr, hre⟩
  · rcases List.exists_mem_of_ne_nil rs hne with ⟨r, hr⟩
    refine ⟨r, hr, ?_⟩
    have h1 := foldl_max_ge_mem rs 0 r hr
    rw [h] at h1 ⊢
    omega
  · exact ⟨r, hr, hre.symm⟩

theorem longestMatchResults_ne (rs : List (LitRes σ)) (hne : rs ≠ []) :
    longestMatchResults rs ≠ [] := by
  rcases exists_greatest rs hne with ⟨r, hr, hre⟩
  unfold longestMatchResults
  intro hc
  rw [List.eq_nil_iff_forall_not_mem] at hc
  exact hc r (List.mem_filter.mpr ⟨hr, by simp [hre]⟩)

theorem bestResult?_some (rs : List (LitRes σ)) (hne : rs ≠ []) :
    ∃ b, bestResult? rs = some b := by
  unfold bestResult?
  cases hf : (longestMatchResults rs).find? (fun r => r.isMatch) with
  | some r => exact ⟨r, rfl⟩
  | none =>
    cases hh : (longestMatchResults rs).head? with
    | some r => exact ⟨r, rfl⟩
    | none =>
      exact absurd (List.head?_eq_none_iff.mp hh) (longestMatchResults_ne rs hne)

theorem bestResult?_mem (rs : List (LitRes σ)) (b : LitRes σ)
    (h : bestResult? rs = some b) : b ∈ longestMatchResults rs := by
  unfold bestResult? at h
  cases hf : (longestMatchResults rs).find? (fun r => r.isMatch) with
  | some r =>
    rw [hf] at h
    injection h with h1
    subst h1
    exact List.mem_of_find?_eq_some hf
  | none =>
    rw [hf] at h
    exact List.mem_of_mem_head? h

theorem mem_longest_matchEnd (rs : List (LitRes σ)) (b : LitRes σ)
    (h : b ∈ longestMatchResults rs) :
    b.matchEnd = greatestMatchEnd rs ∧ b ∈ rs := by
  rcases List.mem_filter.mp h with ⟨hmem, hpred⟩
  exact ⟨by simpa using hpred, hmem⟩

theorem bestResult?_isMatch (rs : List (LitRes σ)) (b : LitRes σ)
    (h : bestResult? rs = some b)
    (hex : ∃ x ∈ longestMatchResults rs, x.isMatch = true) : b.isMatch = true := by
  unfold bestResult? at h
  cases hf : (longestMatchResults rs).find? (fun r => r.isMatch) with
  | some r =>
    rw [hf] at h
    injection h with h1
    subst h1
    exact List.find?_some hf
  | none =>
    rcases hex with ⟨x, hx, hxm⟩
    have := List.find?_eq_none.mp hf x hx
    rw [hxm] at this
    simp at this

theorem strLen_strTake (s : String) (n : Nat) : strLen (strTake s n) = min n (strLen s) := by
  unfold strLen strTake
  simp

theorem strTake_append_strDrop (s : String) (n : Nat) : strTake s n ++ strDrop s n = s := by
  unfold strTake strDrop
  show String.mk (s.data.take n ++ s.data.drop n) = s
  rw [List.take_append_drop]

end LangParse

namespace LangParse

theorem parseRun_eq (eng : RegexEngine) (fuel : Nat) (e : Expr σ) (initState : σ)
    (input : String) :
    parseRun eng fuel e initState input =
      parseInternal eng input fuel e (LitRes.start 0 0 true [] initState) none 0
        (startStore initState) := by
  unfold parseRun
  rw [show bestResult? (resultsOf (startStore initState) 0)
    = some (LitRes.start 0 0 true [] initState) from rfl]

theorem miniExec_wf : wfEngine miniExec := by
  intro r s m gs h
  unfold miniExec at h
  split at h
  · split at h
    · split at h
      · injection h with h1
        injection h1 with hm
        rw [← hm]
        exact Nat.zero_le _
      · simp at h
    · split at h
      · injection h with h1
        injection h1 with hm
        rw [← hm]
        exact Nat.zero_le _
      · simp only [] at h
        split at h
        · injection h with h1
          injection h1 with hm
          rw [← hm]
          unfold strLen
          simp
        · simp at h
  · simp at h

/-- C1: the result `parse` selects is globally longest.  Whenever the run the
source performs terminates (`parseRun` returns a node reference and the final
store), the chosen `bestResult` has maximal `matchEnd` over every
`LiteralResult` recorded anywhere in the store — including the results of
dead branches cut off inside sequences, all of which remain in their
containers' finalized `branchResults` — a matching result is preferred
whenever the maximal-`matchEnd` subset of the root's results contains one,
and `matchingPart = input[0..best.matchEnd]` is never shorter than the
prefix length achieved by any branch. -/
theorem C1_parse_global_longest (σ : Type) (eng : RegexEngine) (fuel : Nat) (e : Expr σ)
    (initState : σ) (input : String) (ref : Nat) (st : Store σ)
    (hwf : wfEngine eng)
    (hrun : parseRun eng fuel e initState input = .ok (ref, st)) :
    ∃ best, bestResult? (resultsOf st ref) = some best ∧
      parse eng fuel e initState input = .ok ⟨strTake input best.matchEnd,
        strDrop input best.matchEnd, best.state, nodeSuggestions st ref⟩ ∧
      (∀ i r, r ∈ resultsOf st i → r.matchEnd ≤ best.matchEnd) ∧
      ((∃ x ∈ longestMatchResults (resultsOf st ref), x.isMatch = true) →
        best.isMatch = true) ∧
      strLen (strTake input best.matchEnd) = best.matchEnd ∧
      (∀ i r, r ∈ resultsOf st i → r.matchEnd ≤ strLen (strTake input best.matchEnd)) := by
  have hrun' : parseInternal eng input fuel e (LitRes.start 0 0 true [] initState) none 0
      (startStore initState) = .ok (ref, st) := by
    rw [← parseRun_eq]
    exact hrun
  obtain ⟨href, hext, hgrow, hne, hmono, hbound, hwfc⟩ :=
    parseInternal_spec eng input fuel e _ none 0 _ ref st hrun'
  have hlen0 : (startStore initState).nodes.length = 1 := rfl
  obtain ⟨best, hbest⟩ := bestResult?_some _ hne
  obtain ⟨hbeq, hbmem⟩ := mem_longest_matchEnd _ _ (bestResult?_mem _ _ hbest)
  have hboundall : ∀ i r, r ∈ resultsOf st i → r.matchEnd ≤ best.matchEnd := by
    intro i r hr
    by_cases hi : (startStore initState).nodes.length ≤ i
    · rcases hbound i r hi hr with ⟨r', hr', hle⟩
      have := greatestMatchEnd_ge _ r' hr'
      omega
    · have hi0 : i = 0 := by omega
      subst hi0
      rw [resultsOf_ext hext (by omega)] at hr
      have : r = LitRes.start 0 0 true [] initState := by
        simpa [startStore, resultsOf] using hr
      subst this
      exact Nat.zero_le _
  have hbin : best.matchEnd ≤ strLen input := by
    refine hwfc hwf (Nat.zero_le _) ref best ?_ hbmem
    omega
  have htake : strLen (strTake input best.matchEnd) = best.matchEnd := by
    rw [strLen_strTake]
    omega
  refine ⟨best, hbest, ?_, hboundall, ?_, htake, ?_⟩
  · unfold parse
    rw [hrun]
    simp only []
    rw [hbest]
  · intro hex
    exact bestResult?_isMatch _ _ hbest hex
  · intro i r hr
    rw [htake]
    exact hboundall i r hr

/-- Witness for C1 at the grammar `union(literal /foo/, literal /foobar/)`
on input `"foobarbaz"` (the spec's example 2). -/
theorem C1_parse_global_longest_witness :
    ∃ p best, (parseRun miniExec 4 unionFooExpr () "foobarbaz").toOption = some p ∧
      bestResult? (resultsOf p.2 p.1) = some best ∧
      (∀ i r, r ∈ resultsOf p.2 i → r.matchEnd ≤ best.matchEnd) ∧
      strLen (strTake "foobarbaz" best.matchEnd) = best.matchEnd := by
  have hok : (parseRun miniExec 4 unionFooExpr () "foobarbaz").isOk = true := by decide
  cases hrun : parseRun miniExec 4 unionFooExpr () "foobarbaz" with
  | error err =>
    rw [hrun] at hok
    simp [Except.isOk, Except.toBool] at hok
  | ok p =>
    obtain ⟨ref, st⟩ := p
    obtain ⟨best, hbest, _, hbound, _, htake, _⟩ :=
      C1_parse_global_longest Unit miniExec 4 unionFooExpr () "foobarbaz" ref st
        miniExec_wf hrun
    exact ⟨(ref, st), best, rfl, hbest, hbound, htake⟩

/-- C9: every literal result recorded during a terminating run has
`matchEnd ≤ length(input)` (`matchEnd` is a `Nat` built by adding matched
lengths starting from the synthetic root's 0, so `0 ≤ matchEnd` holds by
construction), and the returned `ParseResult` splits the input exactly:
`matchingPart ++ remainder = input`. -/
theorem C9_matchEnd_within_input (σ : Type) (eng : RegexEngine) (fuel : Nat) (e : Expr σ)
    (initState : σ) (input : String) (ref : Nat) (st : Store σ)
    (hwf : wfEngine eng)
    (hrun : parseRun eng fuel e initState input = .ok (ref, st)) :
    (∀ i r, r ∈ resultsOf st i → r.matchEnd ≤ strLen input) ∧
    (∃ res, parse eng fuel e initState input = .ok res ∧
      res.matchingPart ++ res.remainder = input) := by
  have hrun' : parseInternal eng input fuel e (LitRes.start 0 0 true [] initState) none 0
      (startStore initState) = .ok (ref, st) := by
    rw [← parseRun_eq]
    exact hrun
  obtain ⟨href, hext, hgrow, hne, hmono, hbound, hwfc⟩ :=
    parseInternal_spec eng input fuel e _ none 0 _ ref st hrun'
  have hlen0 : (startStore initState).nodes.length = 1 := rfl
  constructor
  · intro i r hr
    by_cases hi : (startStore initState).nodes.length ≤ i
    · exact hwfc hwf (Nat.zero_le _) i r hi hr
    · have hi0 : i = 0 := by omega
      subst hi0
      rw [resultsOf_ext hext (by omega)] at hr
      have : r = LitRes.start 0 0 true [] initState := by
        simpa [startStore, resultsOf] using hr
      subst this
      exact Nat.zero_le _
  · obtain ⟨best, hbest⟩ := bestResult?_some _ hne
    refine ⟨⟨strTake input best.matchEnd, strDrop input best.matchEnd, best.state,
      nodeSuggestions st ref⟩, ?_, ?_⟩
    · unfold parse
      rw [hrun]
      simp only []
      rw [hbest]
    · exact strTake_append_strDrop input best.matchEnd

/-- Witness for C9 at the grammar `union(literal /foo/, literal /foobar/)`
on input `"foobarbaz"`. -/
theorem C9_matchEnd_within_input_witness :
    ∃ p, (parseRun miniExec 4 unionFooExpr () "foobarbaz").toOption = some p ∧
      (∀ i r, r ∈ resultsOf p.2 i → r.matchEnd ≤ strLen "foobarbaz") ∧
      (∃ res, parse miniExec 4 unionFooExpr () "foobarbaz" = .ok res ∧
        res.matchingPart ++ res.remainder = "foobarbaz") := by
  have hok : (parseRun miniExec 4 unionFooExpr () "foobarbaz").isOk = true := by decide
  cases hrun : parseRun miniExec 4 unionFooExpr () "foobarbaz" with
  | error err =>
    rw [hrun] at hok
    simp [Except.isOk, Except.toBool] at hok
  | ok p =>
    obtain ⟨ref, st⟩ := p
    obtain ⟨hb, hsplit⟩ :=
      C9_matchEnd_within_input Unit miniExec 4 unionFooExpr () "foobarbaz" ref st
        miniExec_wf hrun
    exact ⟨(ref, st), rfl, hb, hsplit⟩

end LangParse
